import Mathlib

/-!
Verification of the `kratt` repository (classical-text attestation search).

The development shallowly embeds the two source files:
* `src/kratt/cli.py` — query-time CLI: date-range loading, book list ordering,
  per-line variant matching, the scan loop with caps and dedup, snippet
  rendering, exit codes.
* `src/kratt/scan_books.py` — metadata build: dynasty-range resolution,
  catalog evidence scoring, CBDB person disambiguation, and the per-work date
  resolution cascade.

Strings are modelled as `List Char` where character-level surgery matters
(matching, slicing), and as `String` for labels and notes.  Python tuple and
string comparison is modelled by explicit three-way comparators.
-/

set_option maxHeartbeats 1600000

/-! ## Three-way comparators (model of Python tuple/string comparison) -/

def cmpNat (a b : Nat) : Ordering :=
  if a < b then .lt else if b < a then .gt else .eq

def cmpInt (a b : Int) : Ordering :=
  if a < b then .lt else if b < a then .gt else .eq

def cmpChar (a b : Char) : Ordering := cmpNat a.toNat b.toNat

def cmpChars : List Char → List Char → Ordering
  | [], [] => .eq
  | [], _ :: _ => .lt
  | _ :: _, [] => .gt
  | a :: as, b :: bs =>
    match cmpChar a b with
    | .eq => cmpChars as bs
    | o => o

/-- The three laws a comparator needs for the order reasoning below. -/
structure LawfulCmp {α : Type} (C : α → α → Ordering) : Prop where
  swap_eq : ∀ a b, C a b = (C b a).swap
  lt_trans : ∀ a b c, C a b = .lt → C b c = .lt → C a c = .lt
  eq_left : ∀ a b c, C a b = .eq → C a c = C b c

theorem cmpNat_lt_iff {a b : Nat} : cmpNat a b = .lt ↔ a < b := by
  unfold cmpNat; split_ifs <;> simp <;> omega

theorem cmpNat_gt_iff {a b : Nat} : cmpNat a b = .gt ↔ b < a := by
  unfold cmpNat; split_ifs <;> simp <;> omega

theorem cmpNat_eq_iff {a b : Nat} : cmpNat a b = .eq ↔ a = b := by
  unfold cmpNat; split_ifs <;> simp <;> omega

theorem cmpNat_lawful : LawfulCmp cmpNat := by
  constructor
  · intro a b
    cases h : cmpNat b a with
    | lt => rw [cmpNat_lt_iff] at h; rw [show Ordering.lt.swap = .gt from rfl, cmpNat_gt_iff]; exact h
    | gt => rw [cmpNat_gt_iff] at h; rw [show Ordering.gt.swap = .lt from rfl, cmpNat_lt_iff]; exact h
    | eq => rw [cmpNat_eq_iff] at h; rw [show Ordering.eq.swap = .eq from rfl, cmpNat_eq_iff]; omega
  · intro a b c hab hbc
    rw [cmpNat_lt_iff] at *
    omega
  · intro a b c hab
    rw [cmpNat_eq_iff] at hab
    subst hab
    rfl

theorem cmpInt_lt_iff {a b : Int} : cmpInt a b = .lt ↔ a < b := by
  unfold cmpInt; split_ifs <;> simp <;> omega

theorem cmpInt_gt_iff {a b : Int} : cmpInt a b = .gt ↔ b < a := by
  unfold cmpInt; split_ifs <;> simp <;> omega

theorem cmpInt_eq_iff {a b : Int} : cmpInt a b = .eq ↔ a = b := by
  unfold cmpInt; split_ifs <;> simp <;> omega

theorem cmpInt_lawful : LawfulCmp cmpInt := by
  constructor
  · intro a b
    cases h : cmpInt b a with
    | lt => rw [cmpInt_lt_iff] at h; rw [show Ordering.lt.swap = .gt from rfl, cmpInt_gt_iff]; exact h
    | gt => rw [cmpInt_gt_iff] at h; rw [show Ordering.gt.swap = .lt from rfl, cmpInt_lt_iff]; exact h
    | eq => rw [cmpInt_eq_iff] at h; rw [show Ordering.eq.swap = .eq from rfl, cmpInt_eq_iff]; omega
  · intro a b c hab hbc
    rw [cmpInt_lt_iff] at *
    omega
  · intro a b c hab
    rw [cmpInt_eq_iff] at hab
    subst hab
    rfl

theorem cmpChar_lawful : LawfulCmp cmpChar := by
  constructor
  · intro a b
    exact cmpNat_lawful.swap_eq _ _
  · intro a b c
    exact cmpNat_lawful.lt_trans _ _ _
  · intro a b c
    exact cmpNat_lawful.eq_left _ _ _

theorem cmpChars_lawful : LawfulCmp cmpChars := by
  constructor
  · intro a
    induction a with
    | nil =>
      intro b
      cases b <;> rfl
    | cons x xs ih =>
      intro b
      cases b with
      | nil => rfl
      | cons y ys =>
        simp only [cmpChars]
        have hs := cmpChar_lawful.swap_eq x y
        cases hyx : cmpChar y x with
        | lt => rw [hs, hyx]; rfl
        | gt => rw [hs, hyx]; rfl
        | eq => rw [hs, hyx]; simpa [Ordering.swap] using ih ys
  · intro a
    induction a with
    | nil =>
      intro b c hab hbc
      cases b <;> cases c <;> simp_all [cmpChars]
    | cons x xs ih =>
      intro b c hab hbc
      cases b with
      | nil => simp [cmpChars] at hab
      | cons y ys =>
        cases c with
        | nil => simp [cmpChars] at hbc
        | cons z zs =>
          simp only [cmpChars] at *
          cases hxy : cmpChar x y with
          | gt => rw [hxy] at hab; exact absurd hab (by simp)
          | lt =>
            cases hyz : cmpChar y z with
            | gt => rw [hyz] at hbc; exact absurd hbc (by simp)
            | lt => rw [cmpChar_lawful.lt_trans x y z hxy hyz]
            | eq =>
              have : cmpChar x z = cmpChar x y := by
                have := cmpChar_lawful.eq_left y z x hyz
                rw [cmpChar_lawful.swap_eq x z, cmpChar_lawful.swap_eq x y, this]
              rw [this, hxy]
          | eq =>
            rw [hxy] at hab
            cases hyz : cmpChar y z with
            | gt => rw [hyz] at hbc; exact absurd hbc (by simp)
            | lt =>
              have : cmpChar x z = cmpChar y z := cmpChar_lawful.eq_left x y z hxy
              rw [this, hyz]
            | eq =>
              rw [hyz] at hbc
              have : cmpChar x z = cmpChar y z := cmpChar_lawful.eq_left x y z hxy
              rw [this, hyz]
              exact ih ys zs hab hbc
  · intro a
    induction a with
    | nil =>
      intro b c hab
      cases b <;> simp_all [cmpChars]
    | cons x xs ih =>
      intro b c hab
      cases b with
      | nil => simp [cmpChars] at hab
      | cons y ys =>
        simp only [cmpChars] at hab
        cases hxy : cmpChar x y with
        | lt => rw [hxy] at hab; exact absurd hab (by simp)
        | gt => rw [hxy] at hab; exact absurd hab (by simp)
        | eq =>
          rw [hxy] at hab
          cases c with
          | nil => simp [cmpChars]
          | cons z zs =>
            simp only [cmpChars]
            rw [cmpChar_lawful.eq_left x y z hxy, ih ys zs hab]

theorem then_lt_iff {o p : Ordering} :
    o.then p = .lt ↔ o = .lt ∨ (o = .eq ∧ p = .lt) := by
  cases o <;> cases p <;> decide

theorem then_eq_iff {o p : Ordering} :
    o.then p = .eq ↔ o = .eq ∧ p = .eq := by
  cases o <;> cases p <;> decide

theorem then_swap_eq {o p : Ordering} : (o.then p).swap = o.swap.then p.swap := by
  cases o <;> cases p <;> decide

/-- A comparator derived from an `eq`-witness is interchangeable on the right, too. -/
theorem LawfulCmp.eq_right {α : Type} {C : α → α → Ordering} (h : LawfulCmp C)
    {a b : α} (c : α) (hab : C a b = .eq) : C c a = C c b := by
  have hba : C b a = .eq := by
    rw [h.swap_eq b a, hab]; rfl
  have := h.eq_left b a c hba
  rw [h.swap_eq c a, h.swap_eq c b]
  rw [show C a c = C b c from (h.eq_left a b c hab)]

theorem LawfulCmp.then_comp {α : Type} {C D : α → α → Ordering}
    (hC : LawfulCmp C) (hD : LawfulCmp D) :
    LawfulCmp (fun a b => (C a b).then (D a b)) := by
  constructor
  · intro a b
    show (C a b).then (D a b) = ((C b a).then (D b a)).swap
    rw [hC.swap_eq a b, hD.swap_eq a b, ← then_swap_eq]
  · intro a b c hab hbc
    simp only [then_lt_iff] at *
    rcases hab with hab | ⟨hab, hab'⟩
    · rcases hbc with hbc | ⟨hbc, hbc'⟩
      · exact Or.inl (hC.lt_trans a b c hab hbc)
      · left
        rw [hC.eq_right a hbc] at hab  -- hbc : C b c = eq gives C a b = C a c
        exact hab
    · rcases hbc with hbc | ⟨hbc, hbc'⟩
      · left
        rw [← hC.eq_left a b c hab] at hbc
        exact hbc
      · right
        constructor
        · rw [hC.eq_left a b c hab]; exact hbc
        · exact hD.lt_trans a b c hab' hbc'
  · intro a b c hab
    simp only [then_eq_iff] at hab
    show (C a c).then (D a c) = (C b c).then (D b c)
    rw [hC.eq_left a b c hab.1, hD.eq_left a b c hab.2]

theorem LawfulCmp.comap {α β : Type} {C : β → β → Ordering} (f : α → β)
    (hC : LawfulCmp C) : LawfulCmp (fun a b => C (f a) (f b)) := by
  constructor
  · intro a b; exact hC.swap_eq _ _
  · intro a b c; exact hC.lt_trans _ _ _
  · intro a b c; exact hC.eq_left _ _ _

/-- The non-strict relation `a ≤ b` induced by a comparator. -/
def cmpLe {α : Type} (C : α → α → Ordering) (a b : α) : Prop := C a b ≠ .gt

theorem LawfulCmp.le_total {α : Type} {C : α → α → Ordering} (h : LawfulCmp C)
    (a b : α) : cmpLe C a b ∨ cmpLe C b a := by
  unfold cmpLe
  cases hab : C a b with
  | gt =>
    right
    rw [h.swap_eq b a, hab]
    simp [Ordering.swap]
  | lt => left; simp
  | eq => left; simp

theorem LawfulCmp.le_trans {α : Type} {C : α → α → Ordering} (h : LawfulCmp C)
    {a b c : α} (hab : cmpLe C a b) (hbc : cmpLe C b c) : cmpLe C a c := by
  unfold cmpLe at *
  cases h1 : C a b <;> rw [h1] at hab <;> try exact absurd rfl hab
  · cases h2 : C b c <;> rw [h2] at hbc <;> try exact absurd rfl hbc
    · rw [h.lt_trans a b c h1 h2]; simp
    · have hcb : C c b = .eq := by rw [h.swap_eq c b, h2]; rfl
      have : C a c = C a b := by
        have hx := h.eq_left c b a hcb
        rw [h.swap_eq a c, h.swap_eq a b, hx]
      rw [this, h1]; simp
  · cases h2 : C b c <;> rw [h2] at hbc <;> try exact absurd rfl hbc
    · rw [h.eq_left a b c h1, h2]; simp
    · rw [h.eq_left a b c h1, h2]; simp

/-! ## Python string helpers -/

def isPySpace (c : Char) : Bool :=
  c = ' ' || c = '\t' || c = '\n' || c = '\r' || c = '\x0b' || c = '\x0c'

def pyRstrip (s : List Char) : List Char := (s.reverse.dropWhile isPySpace).reverse

def pyLstrip (s : List Char) : List Char := s.dropWhile isPySpace

def pyStrip (s : List Char) : List Char := pyLstrip (pyRstrip s)

/-- Python slice `s[a:b]` for `0 ≤ a ≤ b` (clamped at the ends). -/
def pySlice (s : List Char) (a b : Nat) : List Char := (s.take b).drop a

/-! ## Line matching (`iter_line_matches` in `src/kratt/cli.py`) -/

/-- `term` occurs in `line` at character offset `i`. -/
def occursAt (line term : List Char) (i : Nat) : Prop := term <+: line.drop i

instance (line term : List Char) (i : Nat) : Decidable (occursAt line term i) :=
  inferInstanceAs (Decidable (term <+: line.drop i))

/-- Model of Python `line.find(term, start)`: the least offset `≥ start` where
`term` occurs, scanning left to right (fuel-based recursion). -/
def strFindAux (line term : List Char) : Nat → Nat → Option Nat
  | 0, _ => none
  | fuel + 1, start =>
    if occursAt line term start then some start
    else strFindAux line term fuel (start + 1)

def strFind (line term : List Char) (start : Nat) : Option Nat :=
  strFindAux line term (line.length + 1 - start) start

theorem occursAt_le_length {line term : List Char} {i : Nat}
    (hne : term ≠ []) (h : occursAt line term i) : i + term.length ≤ line.length := by
  unfold occursAt at h
  have hlen := h.length_le
  rw [List.length_drop] at hlen
  have h0 : 0 < term.length := List.length_pos.mpr hne
  omega

theorem strFindAux_some {line term : List Char} {fuel start i : Nat}
    (h : strFindAux line term fuel start = some i) :
    start ≤ i ∧ occursAt line term i ∧
      ∀ j, start ≤ j → j < i → ¬ occursAt line term j := by
  induction fuel generalizing start with
  | zero => simp [strFindAux] at h
  | succ fuel ih =>
    rw [strFindAux] at h
    split_ifs at h with hocc
    · injection h with h
      subst h
      exact ⟨le_refl _, hocc, fun j hj hj' => absurd hj' (by omega)⟩
    · obtain ⟨h1, h2, h3⟩ := ih h
      refine ⟨by omega, h2, fun j hj hlt => ?_⟩
      rcases Nat.eq_or_lt_of_le hj with rfl | hj2
      · exact hocc
      · exact h3 j hj2 hlt

theorem strFindAux_none {line term : List Char} {fuel start : Nat}
    (hne : term ≠ []) (hfuel : line.length + 1 ≤ fuel + start)
    (h : strFindAux line term fuel start = none) :
    ∀ j, start ≤ j → ¬ occursAt line term j := by
  induction fuel generalizing start with
  | zero =>
    intro j hj hocc
    have := occursAt_le_length hne hocc
    have h0 : 0 < term.length := List.length_pos.mpr hne
    omega
  | succ fuel ih =>
    rw [strFindAux] at h
    split_ifs at h with hocc
    intro j hj
    rcases Nat.eq_or_lt_of_le hj with rfl | hj2
    · exact hocc
    · exact ih (by omega) h j hj2

theorem strFind_some {line term : List Char} {start i : Nat}
    (h : strFind line term start = some i) :
    start ≤ i ∧ occursAt line term i ∧
      ∀ j, start ≤ j → j < i → ¬ occursAt line term j :=
  strFindAux_some h

theorem strFind_none {line term : List Char} {start : Nat} (hne : term ≠ [])
    (h : strFind line term start = none) :
    ∀ j, start ≤ j → ¬ occursAt line term j := by
  unfold strFind at h
  exact strFindAux_none hne (by omega) h

theorem strFind_isSome_iff {line term : List Char} (hne : term ≠ []) :
    (strFind line term 0).isSome = true ↔ ∃ i, occursAt line term i := by
  constructor
  · intro h
    cases hf : strFind line term 0 with
    | none => rw [hf] at h; simp at h
    | some i => exact ⟨i, (strFind_some hf).2.1⟩
  · rintro ⟨i, hi⟩
    cases hf : strFind line term 0 with
    | none => exact absurd hi (strFind_none hne hf i (Nat.zero_le _))
    | some j => simp

/-- The inner `while True` loop of `iter_line_matches`: successive
non-overlapping occurrences of one variant, left to right. -/
def lineMatchesAux (line term : List Char) : Nat → Nat → List (Nat × List Char)
  | 0, _ => []
  | fuel + 1, start =>
    match strFind line term start with
    | none => []
    | some idx => (idx, term) :: lineMatchesAux line term fuel (idx + term.length)

/-- All matches of a single variant in a line (empty variants are skipped,
mirroring `if term_len == 0: continue`). -/
def lineTermMatches (line term : List Char) : List (Nat × List Char) :=
  if term.length = 0 then [] else lineMatchesAux line term (line.length + 1) 0

/-- Sort key relation of `matches.sort(key=lambda item: (item[0], item[1]))`:
offset first, then the variant string (code-point lexicographic). -/
def matchCmp (a b : Nat × List Char) : Ordering :=
  (cmpNat a.1 b.1).then (cmpChars a.2 b.2)

def matchLe (a b : Nat × List Char) : Prop := cmpLe matchCmp a b

theorem matchCmp_lawful : LawfulCmp matchCmp :=
  (cmpNat_lawful.comap Prod.fst).then_comp (cmpChars_lawful.comap Prod.snd)

instance : DecidableRel matchLe := fun a b => by
  unfold matchLe cmpLe
  infer_instance

instance : IsTotal (Nat × List Char) matchLe := ⟨matchCmp_lawful.le_total⟩

instance : IsTrans (Nat × List Char) matchLe :=
  ⟨fun _ _ _ hab hbc => matchCmp_lawful.le_trans hab hbc⟩

/-- Model of `iter_line_matches`: collect the per-variant match lists in
variant order, then sort by `(offset, term)`. -/
def iter_line_matches (line : List Char) (variants : List (List Char)) :
    List (Nat × List Char) :=
  List.insertionSort matchLe (variants.flatMap fun term => lineTermMatches line term)

theorem lineMatchesAux_mem {line term : List Char} {fuel start : Nat}
    {p : Nat × List Char} (h : p ∈ lineMatchesAux line term fuel start) :
    p.2 = term ∧ start ≤ p.1 ∧ occursAt line term p.1 := by
  induction fuel generalizing start with
  | zero => simp [lineMatchesAux] at h
  | succ fuel ih =>
    rw [lineMatchesAux] at h
    cases hf : strFind line term start with
    | none => rw [hf] at h; simp at h
    | some idx =>
      rw [hf] at h
      obtain ⟨h1, h2, _⟩ := strFind_some hf
      rcases List.mem_cons.mp h with rfl | h
      · exact ⟨rfl, h1, h2⟩
      · obtain ⟨g1, g2, g3⟩ := ih h
        exact ⟨g1, by omega, g3⟩

theorem lineMatchesAux_pairwise {line term : List Char} {fuel start : Nat} :
    (lineMatchesAux line term fuel start).Pairwise
      (fun a b => a.1 + term.length ≤ b.1) := by
  induction fuel generalizing start with
  | zero => simp [lineMatchesAux]
  | succ fuel ih =>
    rw [lineMatchesAux]
    cases hf : strFind line term start with
    | none => simp
    | some idx =>
      refine List.Pairwise.cons ?_ ih
      intro b hb
      obtain ⟨_, hle, _⟩ := lineMatchesAux_mem hb
      exact hle

theorem lineMatchesAux_complete {line term : List Char} {fuel start p : Nat}
    (hne : term ≠ []) (hfuel : line.length + 1 ≤ fuel + start)
    (hsp : start ≤ p) (hocc : occursAt line term p) :
    ∃ i, (i, term) ∈ lineMatchesAux line term fuel start ∧
      i ≤ p ∧ p < i + term.length := by
  induction fuel generalizing start with
  | zero =>
    exfalso
    have := occursAt_le_length hne hocc
    have h0 : 0 < term.length := List.length_pos.mpr hne
    omega
  | succ fuel ih =>
    rw [lineMatchesAux]
    cases hf : strFind line term start with
    | none => exact absurd hocc (strFind_none hne hf p hsp)
    | some idx =>
      obtain ⟨h1, h2, h3⟩ := strFind_some hf
      have hip : idx ≤ p := by
        by_contra hc
        exact h3 p hsp (by omega) hocc
      by_cases hcase : p < idx + term.length
      · exact ⟨idx, List.mem_cons_self _ _, hip, hcase⟩
      · have h0 : 0 < term.length := List.length_pos.mpr hne
        obtain ⟨i, hi, hi2, hi3⟩ := @ih (idx + term.length) (by omega) (by omega)
        exact ⟨i, List.mem_cons_of_mem _ hi, hi2, hi3⟩

theorem lineTermMatches_mem {line term : List Char} {p : Nat × List Char}
    (h : p ∈ lineTermMatches line term) :
    term ≠ [] ∧ p.2 = term ∧ occursAt line term p.1 := by
  unfold lineTermMatches at h
  split_ifs at h with hz
  · simp at h
  · have hne : term ≠ [] := fun hc => hz (by simp [hc])
    obtain ⟨g1, _, g3⟩ := lineMatchesAux_mem h
    exact ⟨hne, g1, g3⟩

theorem lineTermMatches_complete {line term : List Char} {p : Nat}
    (hne : term ≠ []) (hocc : occursAt line term p) :
    ∃ i, (i, term) ∈ lineTermMatches line term ∧ i ≤ p ∧ p < i + term.length := by
  unfold lineTermMatches
  rw [if_neg (by simpa using List.length_pos.mpr hne |>.ne')]
  exact lineMatchesAux_complete hne (by omega) (Nat.zero_le _) hocc

theorem pairwise_mem_rel {α : Type} {R : α → α → Prop} {l : List α} {a b : α}
    (hp : l.Pairwise R) (ha : a ∈ l) (hb : b ∈ l) (hne : a ≠ b) :
    R a b ∨ R b a := by
  induction l with
  | nil => simp at ha
  | cons x xs ih =>
    rcases List.pairwise_cons.mp hp with ⟨hx, hxs⟩
    rcases List.mem_cons.mp ha with rfl | ha2
    · rcases List.mem_cons.mp hb with rfl | hb2
      · exact absurd rfl hne
      · exact Or.inl (hx b hb2)
    · rcases List.mem_cons.mp hb with rfl | hb2
      · exact Or.inr (hx a ha2)
      · exact ih hxs ha2 hb2

theorem lineTermMatches_gap {line term : List Char} {i j : Nat}
    (hi : (i, term) ∈ lineTermMatches line term)
    (hj : (j, term) ∈ lineTermMatches line term) (hij : i < j) :
    i + term.length ≤ j := by
  unfold lineTermMatches at hi hj
  split_ifs at hi hj with hz
  · simp at hi
  · have hp := @lineMatchesAux_pairwise line term (line.length + 1) 0
    have hne : (i, term) ≠ (j, term) := by
      intro hc
      exact absurd (congrArg Prod.fst hc) (by simpa using Nat.ne_of_lt hij)
    rcases pairwise_mem_rel hp hi hj hne with h | h
    · exact h
    · simp only at h
      omega

/-! ## Books and the catalog order (`src/kratt/cli.py`) -/

/-- `cli.Book`; the file at `path` is modelled inline: `text = none` means the
file does not exist, `some lines` is its line list (newlines stripped). -/
structure Book where
  work_id : List Char
  title : List Char
  dynasty_label : List Char
  author_label : List Char
  rel_path : List Char
  date_not_before : Option Int
  date_not_after : Option Int
  text : Option (List (List Char))
deriving DecidableEq

def UNKNOWN_DATE_KEY : Int × Int := (10 ^ 9, 10 ^ 9)

structure SortKey where
  nb : Int
  na : Int
  id : List Char
  path : List Char
deriving DecidableEq

/-- Model of `book_sort_key`: `(*date_key, work_id, rel_path)` with the
sentinel pair substituted when either bound is unknown. -/
def book_sort_key (book : Book) : SortKey :=
  match book.date_not_before, book.date_not_after with
  | some nb, some na => ⟨nb, na, book.work_id, book.rel_path⟩
  | _, _ => ⟨UNKNOWN_DATE_KEY.1, UNKNOWN_DATE_KEY.2, book.work_id, book.rel_path⟩

/-- Python tuple comparison on sort keys. -/
def keyCmp (a b : SortKey) : Ordering :=
  (cmpInt a.nb b.nb).then ((cmpInt a.na b.na).then
    ((cmpChars a.id b.id).then (cmpChars a.path b.path)))

theorem keyCmp_lawful : LawfulCmp keyCmp :=
  (cmpInt_lawful.comap SortKey.nb).then_comp
    ((cmpInt_lawful.comap SortKey.na).then_comp
      ((cmpChars_lawful.comap SortKey.id).then_comp
        (cmpChars_lawful.comap SortKey.path)))

def bookLe (a b : Book) : Prop := cmpLe keyCmp (book_sort_key a) (book_sort_key b)

def bookLt (a b : Book) : Prop := keyCmp (book_sort_key a) (book_sort_key b) = .lt

instance (a b : Book) : Decidable (bookLt a b) := by
  unfold bookLt
  infer_instance

instance : DecidableRel bookLe := fun a b => by
  unfold bookLe cmpLe
  infer_instance

instance : IsTotal Book bookLe := ⟨fun x y => keyCmp_lawful.le_total (book_sort_key x) (book_sort_key y)⟩

instance : IsTrans Book bookLe := ⟨fun _ _ _ hab hbc => keyCmp_lawful.le_trans hab hbc⟩

/-- One `books.csv` row as `csv.DictReader` yields it (`none` = missing
field), plus the content of the file at `data_dir / path`. -/
structure BookRow where
  work_id : Option (List Char)
  title : Option (List Char)
  dynasty_label : Option (List Char)
  author_label : Option (List Char)
  path : Option (List Char)
  text : Option (List (List Char))

/-- `(row.get(k) or "").strip()`. -/
def rowField (f : Option (List Char)) : List Char := pyStrip (f.getD [])

def buildBooks (rows : List BookRow)
    (date_ranges : List Char → Option (Int × Int)) : List Book :=
  rows.filterMap fun row =>
    let rel_path := rowField row.path
    if rel_path = [] then none
    else
      let dr := date_ranges (rowField row.work_id)
      some
        { work_id := rowField row.work_id
          title := rowField row.title
          dynasty_label := rowField row.dynasty_label
          author_label := rowField row.author_label
          rel_path := rel_path
          date_not_before := dr.map Prod.fst
          date_not_after := dr.map Prod.snd
          text := row.text }

/-- Model of `load_books`: build the list, then `books.sort(key=book_sort_key)`. -/
def load_books (rows : List BookRow)
    (date_ranges : List Char → Option (Int × Int)) : List Book :=
  List.insertionSort bookLe (buildBooks rows date_ranges)

/-! ## Date-range CSV loading (`load_date_ranges` in `src/kratt/cli.py`) -/

structure RangeRow where
  work_id : Option (List Char)
  date_not_before : Option (List Char)
  date_not_after : Option (List Char)

def digitsToNatAux : List Char → Nat → Option Nat
  | [], acc => some acc
  | c :: rest, acc =>
    if c.isDigit then digitsToNatAux rest (acc * 10 + (c.toNat - 48)) else none

def digitsToNat : List Char → Option Nat
  | [] => none
  | l => digitsToNatAux l 0

/-- Model of Python `int(s)` on a text field: optional surrounding
whitespace, optional sign, at least one digit. -/
def pyStrToInt (s : List Char) : Option Int :=
  match pyStrip s with
  | '-' :: rest => (digitsToNat rest).map fun n => -(n : Int)
  | '+' :: rest => (digitsToNat rest).map fun n => (n : Int)
  | t => (digitsToNat t).map fun n => (n : Int)

/-- `int(row[k])` where a missing value raises `TypeError`, caught and
treated as a skip: `none` in, `none` out. -/
def pyIntField : Option (List Char) → Option Int
  | none => none
  | some s => pyStrToInt s

def pairCmp (a b : Int × Int) : Ordering :=
  (cmpInt a.1 b.1).then (cmpInt a.2 b.2)

theorem pairCmp_lawful : LawfulCmp pairCmp :=
  (cmpInt_lawful.comap Prod.fst).then_comp (cmpInt_lawful.comap Prod.snd)

/-- One loop iteration of `load_date_ranges`: skip a blank work id or an
unparseable bound, otherwise keep the smaller pair (Python tuple order). -/
def dateRangeStep (ranges : List Char → Option (Int × Int)) (row : RangeRow) :
    List Char → Option (Int × Int) :=
  let work_id := rowField row.work_id
  if work_id = [] then ranges
  else
    match pyIntField row.date_not_before, pyIntField row.date_not_after with
    | some dnb, some dna =>
      let candidate := (dnb, dna)
      match ranges work_id with
      | none => fun k => if k = work_id then some candidate else ranges k
      | some current =>
        if pairCmp candidate current = .lt then
          fun k => if k = work_id then some candidate else ranges k
        else ranges
    | _, _ => ranges

/-- Model of `load_date_ranges`: fold the CSV rows into a `work_id → range`
map. -/
def load_date_ranges (rows : List RangeRow) : List Char → Option (Int × Int) :=
  rows.foldl dateRangeStep (fun _ => none)

/-! ## Scanning (`iter_matches` and the result loop of `main`) -/

structure MatchRec where
  work_id : List Char
  line_no : Nat
  offset : Nat
  term : List Char
  line : List Char
deriving DecidableEq

/-- The cap behaviour of the generator `iter_matches`: yield a match,
decrement `remaining`, return once it drops to 0 (`none` = no cap). -/
def capTake {α : Type} : Option Int → List α → List α
  | _, [] => []
  | none, m :: ms => m :: capTake none ms
  | some r, m :: ms => if r - 1 ≤ 0 then [m] else m :: capTake (some (r - 1)) ms

/-- All matches of a book's text, line by line, in file order. -/
def bookMatches (book : Book) (variants : List (List Char)) : List MatchRec :=
  match book.text with
  | none => []
  | some lines =>
    (List.enumFrom 1 lines).flatMap fun nl =>
      (iter_line_matches nl.2 variants).map fun m =>
        ⟨book.work_id, nl.1, m.1, m.2, nl.2⟩

/-- Model of `iter_matches book variants max_matches` (a missing file yields
no matches). -/
def iter_matches (book : Book) (variants : List (List Char))
    (max_matches : Option Int) : List MatchRec :=
  capTake max_matches (bookMatches book variants)

/-- The result-collection loop of `main` (`src/kratt/cli.py` lines 229–236). -/
def scanLoopAux (variants : List (List Char)) (limit : Int) (dedup : Bool) :
    List Book → List MatchRec → List MatchRec
  | [], results => results
  | book :: rest, results =>
    let remaining := limit - results.length
    if remaining ≤ 0 then results
    else
      scanLoopAux variants limit dedup rest
        (results ++ iter_matches book variants (some (if dedup then 1 else remaining)))

def scanLoop (books : List Book) (variants : List (List Char)) (limit : Int)
    (dedup : Bool) : List MatchRec :=
  scanLoopAux variants limit dedup books []

/-! ## Exit codes (`main` in `src/kratt/cli.py`) -/

inductive SetupOutcome where
  | ok (books : List Book)
  | failure (msg : String)

structure RunOutcome where
  exit_code : Nat
  results : List MatchRec
  error_reported : Bool

/-- Exit-code and output structure of `main`: the `resolve_data_dir`
try/except (lines 219–223), the scan loop, and the final return
(lines 258–260). -/
def mainModel (setup : SetupOutcome) (variants : List (List Char)) (limit : Int)
    (dedup : Bool) : RunOutcome :=
  match setup with
  | .failure _ => ⟨2, [], true⟩
  | .ok books =>
    let results := scanLoop books variants limit dedup
    ⟨if results = [] then 1 else 0, results, false⟩

/-! ## Snippet rendering (`render_snippet` in `src/kratt/cli.py`) -/

def dots : List Char := ['.', '.', '.']

def replaceTabs (s : List Char) : List Char :=
  s.map fun c => if c = '\t' then ' ' else c

/-- Model of `render_snippet`. -/
def render_snippet (line : List Char) (offset : Nat) (term : List Char)
    (context : Int) : List Char :=
  let cleaned := pyRstrip (replaceTabs line)
  let ctx : Nat := (max context 0).toNat
  let start : Nat := offset - ctx
  let stop : Nat := min cleaned.length (offset + term.length + ctx)
  let pre := pySlice cleaned start offset
  let mtch := pySlice cleaned offset (offset + term.length)
  let suf := pySlice cleaned (offset + term.length) stop
  let left_marker := if 0 < start then dots else []
  let right_marker := if stop < cleaned.length then dots else []
  pyStrip (left_marker ++ pre ++ '[' :: mtch ++ ']' :: suf ++ right_marker)

/-! ## Dynasty tables (`src/kratt/scan_books.py`) -/

def DEFAULT_DYNASTY_RANGES : String → Option (Int × Int) := fun label =>
  if label = "西周" then some (-1046, -771)
  else if label = "東周" then some (-770, -256)
  else if label = "周" then some (-1046, -256)
  else if label = "春秋" then some (-770, -476)
  else if label = "戰國" then some (-475, -221)
  else if label = "秦" then some (-221, -206)
  else if label = "西漢" then some (-206, 8)
  else if label = "新" then some (9, 23)
  else if label = "東漢" then some (25, 220)
  else if label = "漢" then some (-206, 220)
  else if label = "三國" then some (220, 280)
  else if label = "魏" then some (220, 266)
  else if label = "蜀" then some (221, 263)
  else if label = "吳" then some (229, 280)
  else if label = "西晉" then some (266, 316)
  else if label = "東晉" then some (317, 420)
  else if label = "晉" then some (266, 420)
  else if label = "北魏" then some (386, 534)
  else if label = "東魏" then some (534, 550)
  else if label = "西魏" then some (535, 557)
  else if label = "北齊" then some (550, 577)
  else if label = "北周" then some (557, 581)
  else if label = "劉宋" then some (420, 479)
  else if label = "南齊" then some (479, 502)
  else if label = "梁" then some (502, 557)
  else if label = "陳" then some (557, 589)
  else if label = "南北朝" then some (420, 589)
  else if label = "南朝" then some (420, 589)
  else if label = "北朝" then some (386, 581)
  else if label = "隋" then some (581, 618)
  else if label = "唐" then some (618, 907)
  else if label = "五代" then some (907, 960)
  else if label = "五代十國" then some (907, 979)
  else if label = "北宋" then some (960, 1127)
  else if label = "南宋" then some (1127, 1279)
  else if label = "宋" then some (960, 1279)
  else if label = "遼" then some (907, 1125)
  else if label = "西夏" then some (1038, 1227)
  else if label = "金" then some (1115, 1234)
  else if label = "元" then some (1271, 1368)
  else if label = "明" then some (1368, 1644)
  else if label = "清" then some (1644, 1912)
  else if label = "民國" then some (1912, 1949)
  else none

def DYNASTY_ALIASES : String → Option String := fun label =>
  if label = "前漢" then some "西漢"
  else if label = "後漢" then some "東漢"
  else if label = "蜀漢" then some "蜀"
  else if label = "東吳" then some "吳"
  else if label = "孫吳" then some "吳"
  else if label = "南朝宋" then some "劉宋"
  else if label = "宋(南朝)" then some "劉宋"
  else none

/-- Model of `resolve_dynasty_range`. -/
def resolve_dynasty_range (dynasty_label : String)
    (ranges : String → Option (Int × Int)) : Option Int × Option Int × String :=
  if dynasty_label = "" then (none, none, "missing dynasty label")
  else
    let normalized := (DYNASTY_ALIASES dynasty_label).getD dynasty_label
    match ranges normalized with
    | none => (none, none, "unmapped dynasty label=" ++ dynasty_label)
    | some (date_not_before, date_not_after) =>
      if normalized ≠ dynasty_label then
        (some date_not_before, some date_not_after,
          "dynasty_label=" ++ dynasty_label ++ " alias=" ++ normalized)
      else (some date_not_before, some date_not_after,
        "dynasty_label=" ++ dynasty_label)

/-! ## Catalog evidence (`src/kratt/scan_books.py`) -/

def PREFERRED_FUNCTIONS : List String :=
  ["撰", "著", "編", "纂", "輯", "譯", "注", "註", "疏", "述", "校", "校訂",
   "考", "考補", "解", "傳", "音義"]

structure PersonEvidence where
  work_id : String
  person_name : String
  function : String
  dynasty_label : String
  raw_dates : String
  date_not_before : Option Int
  date_not_after : Option Int
deriving DecidableEq

/-- The inline score of `choose_best_evidence`: +2 both bounds, +1 one
bound, +1 preferred role. -/
def evidenceScore (item : PersonEvidence) : Int :=
  (match item.date_not_before, item.date_not_after with
   | some _, some _ => 2
   | some _, none => 1
   | none, some _ => 1
   | none, none => 0) +
  (if item.function ∈ PREFERRED_FUNCTIONS then 1 else 0)

def chooseBestAux : List PersonEvidence → Option PersonEvidence → Int →
    Option PersonEvidence
  | [], best, _ => best
  | item :: rest, best, best_score =>
    if best_score < evidenceScore item then
      chooseBestAux rest (some item) (evidenceScore item)
    else chooseBestAux rest best best_score

/-- Model of `choose_best_evidence`. -/
def choose_best_evidence (evidence : List PersonEvidence) : Option PersonEvidence :=
  chooseBestAux evidence none (-1)

/-! ## CBDB persons (`src/kratt/scan_books.py`) -/

structure CBDBPerson where
  person_id : String
  name : String
  birth_year : Option Int
  death_year : Option Int
  fl_earliest : Option Int
  fl_latest : Option Int
deriving DecidableEq

/-- Model of `choose_cbdb_person`: a unique candidate or nothing. -/
def choose_cbdb_person (candidates : List CBDBPerson) : Option CBDBPerson :=
  match candidates with
  | [] => none
  | [p] => some p
  | _ => none

/-- Model of `cbdb_date_range`. -/
def cbdb_date_range (person : CBDBPerson) : Option Int × Option Int × String :=
  match person.birth_year, person.death_year with
  | some b, some d => (some b, some d, "author_lifespan_bound")
  | _, _ =>
    match person.fl_earliest, person.fl_latest with
    | some e, some l => (some e, some l, "floruit_bound")
    | _, _ => (none, none, "")

/-! ## Author-name normalization (`normalize_author_name`) -/

def isOpenParen (c : Char) : Bool := c = '（' || c = '('

def isCloseParen (c : Char) : Bool := c = '）' || c = ')'

def dropThroughClose : List Char → Option (List Char)
  | [] => none
  | c :: rest => if isCloseParen c then some rest else dropThroughClose rest

theorem dropThroughClose_length {l r : List Char}
    (h : dropThroughClose l = some r) : r.length < l.length := by
  induction l with
  | nil => simp [dropThroughClose] at h
  | cons c rest ih =>
    rw [dropThroughClose] at h
    split_ifs at h with hc
    · injection h with h
      subst h
      simp
    · have := ih h
      simp only [List.length_cons]
      omega

def stripParensAux : Nat → List Char → List Char
  | 0, s => s
  | _ + 1, [] => []
  | fuel + 1, c :: rest =>
    if isOpenParen c then
      match dropThroughClose rest with
      | some rest2 => stripParensAux fuel rest2
      | none => c :: stripParensAux fuel rest
    else c :: stripParensAux fuel rest

/-- Model of `PAREN_RE.sub("", name)`: delete each leftmost span running
from an opening paren to the first closing paren after it.  The fuel
(initially the string length) strictly bounds the recursion depth, since
every step strictly shrinks the list. -/
def stripParens (s : List Char) : List Char := stripParensAux s.length s

def UNKNOWN_AUTHOR_MARKERS : List (List Char) :=
  ["佚名".toList, "闕名".toList, "不詳".toList, "未知".toList, "失名".toList,
   "不著撰人".toList, "作者不詳".toList, "不知撰人".toList]

/-- Python `sub in s` (substring containment). -/
def containsSub (s sub : List Char) : Bool := (strFind s sub 0).isSome

/-- Model of `normalize_author_name`. -/
def normalize_author_name (author_label : String) : Option String :=
  let name := pyStrip author_label.toList
  if name = [] then none
  else
    let name2 := pyStrip (stripParens name)
    if name2 = [] then none
    else if UNKNOWN_AUTHOR_MARKERS.any fun m => containsSub name2 m then none
    else some (String.mk name2)

/-! ## The per-work date-resolution cascade
(`write_publication_date_ranges`, `src/kratt/scan_books.py` lines 496–562) -/

/-- `scan_books.Book` (a parsed filename). -/
structure ScanBook where
  collection : String
  work_id : String
  title : String
  dynasty_label : String
  author_label : String
  filename : String
  path : String
deriving DecidableEq

/-- One row of `publication_date_range.csv` (blank bounds are `none`). -/
structure DateRow where
  work_id : String
  source : String
  date_not_before : Option Int
  date_not_after : Option Int
  date_type : String
  confidence : String
  note : String
  ref : String
deriving DecidableEq

/-- The catalog-then-dynasty tail of the cascade (the code after the `cbdb`
block `continue`s). -/
def catalogOrDynasty (book : ScanBook)
    (kr_evidence : String → List PersonEvidence)
    (ranges : String → Option (Int × Int)) : DateRow :=
  let evidence := kr_evidence book.work_id
  let best := if evidence.isEmpty then none else choose_best_evidence evidence
  match best with
  | some b =>
    { work_id := book.work_id
      source := "kr_catalog"
      date_not_before := b.date_not_before
      date_not_after := b.date_not_after
      date_type := "author_lifespan_bound"
      confidence :=
        if b.date_not_before = none ∨ b.date_not_after = none then "low"
        else "medium"
      note := "person=" ++ b.person_name ++ " function=" ++ b.function ++
        " dates=" ++ b.raw_dates
      ref := "KR-Catalog" }
  | none =>
    let r := resolve_dynasty_range book.dynasty_label ranges
    { work_id := book.work_id
      source := "filename_dynasty"
      date_not_before := r.1
      date_not_after := r.2.1
      date_type := "dynasty_bound"
      confidence := "low"
      note := r.2.2
      ref := "" }

/-- The full per-book body of the loop in `write_publication_date_ranges`:
cbdb tier first, then catalog, then dynasty fallback. -/
def resolveDateRow (book : ScanBook)
    (cbdb_people : String → List CBDBPerson)
    (kr_evidence : String → List PersonEvidence)
    (ranges : String → Option (Int × Int)) : DateRow :=
  match normalize_author_name book.author_label with
  | some author_name =>
    match choose_cbdb_person (cbdb_people author_name) with
    | some person =>
      match cbdb_date_range person with
      | (some date_not_before, some date_not_after, date_type) =>
        { work_id := book.work_id
          source := "cbdb"
          date_not_before := some date_not_before
          date_not_after := some date_not_after
          date_type := date_type
          confidence := "medium"
          note := "name=" ++ person.name ++ " id=" ++ person.person_id
          ref := "CBDB_20240208_DATA2" }
      | _ => catalogOrDynasty book kr_evidence ranges
    | none => catalogOrDynasty book kr_evidence ranges
  | none => catalogOrDynasty book kr_evidence ranges

/-! ## Claim C6: dynasty-label resolution -/

/-- C6: `resolve_dynasty_range`: an empty label yields an absent interval
with note "missing dynasty label"; a label unmapped after alias
normalization yields an absent interval with a note naming it; an alias
label yields exactly the interval its canonical label yields, with a note
naming both; a directly mapped label yields the table interval with a note
naming it. -/
theorem c6_resolve_dynasty_range (ranges : String → Option (Int × Int))
    (label canonical : String) (a b : Int) :
    resolve_dynasty_range "" ranges = (none, none, "missing dynasty label") ∧
    (label ≠ "" → ranges ((DYNASTY_ALIASES label).getD label) = none →
      resolve_dynasty_range label ranges =
        (none, none, "unmapped dynasty label=" ++ label)) ∧
    (label ≠ "" → DYNASTY_ALIASES label = some canonical → canonical ≠ label →
      canonical ≠ "" → DYNASTY_ALIASES canonical = none →
      ranges canonical = some (a, b) →
      resolve_dynasty_range label ranges =
          (some a, some b, "dynasty_label=" ++ label ++ " alias=" ++ canonical) ∧
        resolve_dynasty_range canonical ranges =
          (some a, some b, "dynasty_label=" ++ canonical)) ∧
    (label ≠ "" → DYNASTY_ALIASES label = none → ranges label = some (a, b) →
      resolve_dynasty_range label ranges =
        (some a, some b, "dynasty_label=" ++ label)) := by
  refine ⟨by simp [resolve_dynasty_range], ?_, ?_, ?_⟩
  · intro h1 h2
    unfold resolve_dynasty_range
    rw [if_neg h1]
    simp only [h2]
  · intro h1 h2 h3 h4 h5 h6
    constructor
    · unfold resolve_dynasty_range
      rw [if_neg h1]
      simp only [h2, Option.getD_some, h6]
      rw [if_pos h3]
    · unfold resolve_dynasty_range
      rw [if_neg h4]
      simp only [h5, Option.getD_none, h6]
      rw [if_neg (by simp)]
  · intro h1 h2 h3
    unfold resolve_dynasty_range
    rw [if_neg h1]
    simp only [h2, Option.getD_none, h3]
    rw [if_neg (by simp)]

/-- C6 witness: the spec's own example, `前漢` resolving through the alias to
`西漢`'s interval on the default table, the note naming both labels. -/
theorem c6_witness :
    resolve_dynasty_range "前漢" DEFAULT_DYNASTY_RANGES =
        (some (-206), some 8, "dynasty_label=前漢 alias=西漢") ∧
      resolve_dynasty_range "西漢" DEFAULT_DYNASTY_RANGES =
        (some (-206), some 8, "dynasty_label=西漢") :=
  (c6_resolve_dynasty_range DEFAULT_DYNASTY_RANGES "前漢" "西漢" (-206) 8).2.2.1
    (by decide) (by decide) (by decide) (by decide) (by decide) (by decide)

/-! ## Claim C3: the cbdb tier -/

theorem choose_cbdb_person_eq_some {c : List CBDBPerson} {p : CBDBPerson} :
    choose_cbdb_person c = some p ↔ c = [p] := by
  match c with
  | [] => simp [choose_cbdb_person]
  | [q] => simp [choose_cbdb_person]
  | q :: r :: rest => simp [choose_cbdb_person]

theorem cbdb_date_range_some_iff {p : CBDBPerson} {nb na : Int} {dt : String} :
    cbdb_date_range p = (some nb, some na, dt) ↔
      (p.birth_year = some nb ∧ p.death_year = some na ∧
        dt = "author_lifespan_bound") ∨
      ((p.birth_year = none ∨ p.death_year = none) ∧
        p.fl_earliest = some nb ∧ p.fl_latest = some na ∧
        dt = "floruit_bound") := by
  cases hb : p.birth_year <;> cases hd : p.death_year <;>
    cases he : p.fl_earliest <;> cases hl : p.fl_latest <;>
    simp [cbdb_date_range, hb, hd, he, hl, Prod.ext_iff, eq_comm, and_comm]

theorem catalogOrDynasty_source (book : ScanBook)
    (kr_evidence : String → List PersonEvidence)
    (ranges : String → Option (Int × Int)) :
    (catalogOrDynasty book kr_evidence ranges).source = "kr_catalog" ∨
      (catalogOrDynasty book kr_evidence ranges).source = "filename_dynasty" := by
  unfold catalogOrDynasty
  cases hb : (if (kr_evidence book.work_id).isEmpty then none
      else choose_best_evidence (kr_evidence book.work_id)) with
  | none => right; simp only [hb]
  | some b => left; simp only [hb]

theorem resolveDateRow_cbdb_case {book : ScanBook}
    {cbdb_people : String → List CBDBPerson}
    {kr_evidence : String → List PersonEvidence}
    {ranges : String → Option (Int × Int)} {n : String} {p : CBDBPerson}
    {nb na : Int} {dt : String}
    (hn : normalize_author_name book.author_label = some n)
    (hp : cbdb_people n = [p])
    (hd : cbdb_date_range p = (some nb, some na, dt)) :
    resolveDateRow book cbdb_people kr_evidence ranges =
      { work_id := book.work_id, source := "cbdb", date_not_before := some nb,
        date_not_after := some na, date_type := dt, confidence := "medium",
        note := "name=" ++ p.name ++ " id=" ++ p.person_id,
        ref := "CBDB_20240208_DATA2" } := by
  unfold resolveDateRow
  simp only [hn, hp]
  have hc : choose_cbdb_person [p] = some p := rfl
  simp only [hc, hd]

theorem resolveDateRow_not_cbdb {book : ScanBook}
    {cbdb_people : String → List CBDBPerson}
    {kr_evidence : String → List PersonEvidence}
    {ranges : String → Option (Int × Int)}
    (h : ¬ ∃ n p nb na dt, normalize_author_name book.author_label = some n ∧
      cbdb_people n = [p] ∧ cbdb_date_range p = (some nb, some na, dt)) :
    resolveDateRow book cbdb_people kr_evidence ranges =
      catalogOrDynasty book kr_evidence ranges := by
  unfold resolveDateRow
  cases hn : normalize_author_name book.author_label with
  | none => rfl
  | some n =>
    cases hc : choose_cbdb_person (cbdb_people n) with
    | none => simp only [hc]
    | some p =>
      have hp : cbdb_people n = [p] := choose_cbdb_person_eq_some.mp hc
      rcases hr : cbdb_date_range p with ⟨onb, ona, dt⟩
      cases onb with
      | none => simp only [hc, hr]
      | some nb =>
        cases ona with
        | none => simp only [hc, hr]
        | some na => exact absurd ⟨n, p, nb, na, dt, hn, hp, hr⟩ h

/-- C3: the cbdb tier resolves a work's date iff the normalized author name
has exactly one candidate and that candidate has a usable pair; the unique
candidate's `[birth, death]` is used with `author_lifespan_bound` when both
are present, else `[fl_earliest, fl_latest]` with `floruit_bound` when both
floruit bounds are present, and otherwise (or with 0 or ≥ 2 candidates) the
tier abstains. -/
theorem c3_cbdb_tier (book : ScanBook)
    (cbdb_people : String → List CBDBPerson)
    (kr_evidence : String → List PersonEvidence)
    (ranges : String → Option (Int × Int)) :
    ((resolveDateRow book cbdb_people kr_evidence ranges).source = "cbdb" ↔
      ∃ n p nb na dt, normalize_author_name book.author_label = some n ∧
        cbdb_people n = [p] ∧ cbdb_date_range p = (some nb, some na, dt)) ∧
    (∀ n p b d, normalize_author_name book.author_label = some n →
      cbdb_people n = [p] → p.birth_year = some b → p.death_year = some d →
      resolveDateRow book cbdb_people kr_evidence ranges =
        { work_id := book.work_id, source := "cbdb", date_not_before := some b,
          date_not_after := some d, date_type := "author_lifespan_bound",
          confidence := "medium",
          note := "name=" ++ p.name ++ " id=" ++ p.person_id,
          ref := "CBDB_20240208_DATA2" }) ∧
    (∀ n p e l, normalize_author_name book.author_label = some n →
      cbdb_people n = [p] → (p.birth_year = none ∨ p.death_year = none) →
      p.fl_earliest = some e → p.fl_latest = some l →
      resolveDateRow book cbdb_people kr_evidence ranges =
        { work_id := book.work_id, source := "cbdb", date_not_before := some e,
          date_not_after := some l, date_type := "floruit_bound",
          confidence := "medium",
          note := "name=" ++ p.name ++ " id=" ++ p.person_id,
          ref := "CBDB_20240208_DATA2" }) ∧
    (∀ n, normalize_author_name book.author_label = some n →
      (cbdb_people n = [] ∨ 2 ≤ (cbdb_people n).length) →
      (resolveDateRow book cbdb_people kr_evidence ranges).source ≠ "cbdb") ∧
    (∀ n p, normalize_author_name book.author_label = some n →
      cbdb_people n = [p] → (p.birth_year = none ∨ p.death_year = none) →
      (p.fl_earliest = none ∨ p.fl_latest = none) →
      (resolveDateRow book cbdb_people kr_evidence ranges).source ≠ "cbdb") := by
  have hiff : (resolveDateRow book cbdb_people kr_evidence ranges).source = "cbdb" ↔
      ∃ n p nb na dt, normalize_author_name book.author_label = some n ∧
        cbdb_people n = [p] ∧ cbdb_date_range p = (some nb, some na, dt) := by
    constructor
    · intro hs
      by_contra hne
      rw [resolveDateRow_not_cbdb hne] at hs
      rcases catalogOrDynasty_source book kr_evidence ranges with h | h <;>
        rw [h] at hs <;> exact absurd hs (by decide)
    · rintro ⟨n, p, nb, na, dt, hn, hp, hd⟩
      rw [resolveDateRow_cbdb_case hn hp hd]
  refine ⟨hiff, ?_, ?_, ?_, ?_⟩
  · intro n p b d hn hp hb hd
    have : cbdb_date_range p = (some b, some d, "author_lifespan_bound") := by
      unfold cbdb_date_range
      rw [hb, hd]
    exact resolveDateRow_cbdb_case hn hp this
  · intro n p e l hn hp hmiss he hl
    have : cbdb_date_range p = (some e, some l, "floruit_bound") := by
      rw [cbdb_date_range_some_iff]
      exact Or.inr ⟨hmiss, he, hl, rfl⟩
    exact resolveDateRow_cbdb_case hn hp this
  · intro n hn hcand hs
    rcases hiff.mp hs with ⟨n', p, nb, na, dt, hn', hp, hd⟩
    rw [hn] at hn'
    injection hn' with hn'
    subst hn'
    rcases hcand with hc | hc
    · rw [hc] at hp
      exact absurd hp (by simp)
    · rw [hp] at hc
      simp at hc
  · intro n p hn hp hmiss hflmiss hs
    rcases hiff.mp hs with ⟨n', p', nb, na, dt, hn', hp', hd⟩
    rw [hn] at hn'
    injection hn' with hn'
    subst hn'
    rw [hp] at hp'
    injection hp' with hp'
    subst hp'
    rw [cbdb_date_range_some_iff] at hd
    rcases hd with ⟨h1, h2, _⟩ | ⟨_, h1, h2, _⟩
    · rcases hmiss with hm | hm <;> simp_all
    · rcases hflmiss with hm | hm <;> simp_all

/-- C3 witness: a unique candidate with both lifespan bounds resolves with
`author_lifespan_bound`; instantiated at a concrete book and person. -/
theorem c3_witness :
    resolveDateRow
        ⟨"KR1", "KR1a0001", "t", "漢", "張衡", "f", "p"⟩
        (fun n => if n = "張衡" then
          [⟨"123", "張衡", some 78, some 139, none, none⟩] else [])
        (fun _ => []) DEFAULT_DYNASTY_RANGES =
      { work_id := "KR1a0001", source := "cbdb", date_not_before := some 78,
        date_not_after := some 139, date_type := "author_lifespan_bound",
        confidence := "medium", note := "name=張衡 id=123",
        ref := "CBDB_20240208_DATA2" } :=
  (c3_cbdb_tier ⟨"KR1", "KR1a0001", "t", "漢", "張衡", "f", "p"⟩
      (fun n => if n = "張衡" then
        [⟨"123", "張衡", some 78, some 139, none, none⟩] else [])
      (fun _ => []) DEFAULT_DYNASTY_RANGES).2.1
    "張衡" ⟨"123", "張衡", some 78, some 139, none, none⟩ 78 139
    (by decide) (by decide) rfl rfl

/-! ## Claim C4: catalog evidence scoring -/

theorem evidenceScore_nonneg (x : PersonEvidence) : 0 ≤ evidenceScore x := by
  unfold evidenceScore
  cases h1 : x.date_not_before <;> cases h2 : x.date_not_after <;>
    split_ifs <;> simp

theorem chooseBestAux_spec (l : List PersonEvidence) (b : PersonEvidence) :
    ∃ e, chooseBestAux l (some b) (evidenceScore b) = some e ∧
      evidenceScore b ≤ evidenceScore e ∧
      (∀ x ∈ l, evidenceScore x ≤ evidenceScore e) ∧
      (e = b ∨ ∃ l1 l2, l = l1 ++ e :: l2 ∧
        evidenceScore b < evidenceScore e ∧
        ∀ x ∈ l1, evidenceScore x < evidenceScore e) := by
  induction l generalizing b with
  | nil => exact ⟨b, rfl, le_refl _, by simp, Or.inl rfl⟩
  | cons x rest ih =>
    rw [chooseBestAux]
    split_ifs with hlt
    · obtain ⟨e, he, hbe, hall, hsplit⟩ := ih x
      refine ⟨e, he, by omega, ?_, ?_⟩
      · intro y hy
        rcases List.mem_cons.mp hy with rfl | hy2
        · exact hbe
        · exact hall y hy2
      · rcases hsplit with rfl | ⟨l1, l2, hl, hxe, hl1⟩
        · exact Or.inr ⟨[], rest, rfl, hlt, by simp⟩
        · refine Or.inr ⟨x :: l1, l2, by rw [hl, List.cons_append], by omega, ?_⟩
          intro y hy
          rcases List.mem_cons.mp hy with rfl | hy2
          · omega
          · exact hl1 y hy2
    · obtain ⟨e, he, hbe, hall, hsplit⟩ := ih b
      push_neg at hlt
      refine ⟨e, he, hbe, ?_, ?_⟩
      · intro y hy
        rcases List.mem_cons.mp hy with rfl | hy2
        · omega
        · exact hall y hy2
      · rcases hsplit with rfl | ⟨l1, l2, hl, hbee, hl1⟩
        · exact Or.inl rfl
        · refine Or.inr ⟨x :: l1, l2, by rw [hl, List.cons_append], hbee, ?_⟩
          intro y hy
          rcases List.mem_cons.mp hy with rfl | hy2
          · omega
          · exact hl1 y hy2

/-- C4: `choose_best_evidence` scores each record +2 for both bounds, +1 for
exactly one bound, +1 for an authorial role, returns a record of maximal
score, keeping the first-seen among equal scores; both-bounds-and-authorial
strictly outscores one-bound-and-non-authorial. -/
theorem c4_choose_best_evidence (l : List PersonEvidence) (h : l ≠ []) :
    (∃ e l1 l2, choose_best_evidence l = some e ∧ l = l1 ++ e :: l2 ∧
      (∀ x ∈ l, evidenceScore x ≤ evidenceScore e) ∧
      (∀ x ∈ l1, evidenceScore x < evidenceScore e)) ∧
    (∀ e : PersonEvidence, evidenceScore e =
      (if e.date_not_before ≠ none ∧ e.date_not_after ≠ none then 2
       else if e.date_not_before ≠ none ∨ e.date_not_after ≠ none then 1
       else 0) +
      (if e.function ∈ PREFERRED_FUNCTIONS then 1 else 0)) ∧
    (∀ e1 e2 : PersonEvidence,
      e1.date_not_before ≠ none → e1.date_not_after ≠ none →
      e1.function ∈ PREFERRED_FUNCTIONS →
      ((e2.date_not_before = none ∧ e2.date_not_after ≠ none) ∨
        (e2.date_not_before ≠ none ∧ e2.date_not_after = none)) →
      e2.function ∉ PREFERRED_FUNCTIONS →
      evidenceScore e2 < evidenceScore e1) := by
  refine ⟨?_, ?_, ?_⟩
  · cases l with
    | nil => exact absurd rfl h
    | cons x rest =>
      unfold choose_best_evidence
      rw [chooseBestAux,
        if_pos (by have := evidenceScore_nonneg x; omega)]
      obtain ⟨e, he, hxe, hall, hsplit⟩ := chooseBestAux_spec rest x
      rcases hsplit with rfl | ⟨l1, l2, hl, hee, hl1⟩
      · refine ⟨e, [], rest, he, rfl, ?_, by simp⟩
        intro y hy
        rcases List.mem_cons.mp hy with rfl | hy2
        · exact le_refl _
        · exact hall y hy2
      · refine ⟨e, x :: l1, l2, he, by rw [hl, List.cons_append], ?_, ?_⟩
        · intro y hy
          rcases List.mem_cons.mp hy with rfl | hy2
          · exact hxe
          · exact hall y hy2
        · intro y hy
          rcases List.mem_cons.mp hy with rfl | hy2
          · omega
          · exact hl1 y hy2
  · intro e
    unfold evidenceScore
    cases h1 : e.date_not_before <;> cases h2 : e.date_not_after <;> simp
  · intro e1 e2 h1 h2 h3 h4 h5
    unfold evidenceScore
    cases g1 : e1.date_not_before <;> cases g2 : e1.date_not_after <;>
      cases g3 : e2.date_not_before <;> cases g4 : e2.date_not_after <;>
      simp_all

/-- C4 witness: on a two-record list whose second element has both bounds
and an authorial role while the first has one bound and no authorial role,
the second is chosen (strictly higher score). -/
theorem c4_witness :
    ∃ e l1 l2,
      choose_best_evidence
          [⟨"KR1a0001", "乙", "序", "漢", "b. 100", some 100, none⟩,
           ⟨"KR1a0001", "甲", "撰", "漢", "100-150", some 100, some 150⟩] =
        some e ∧
      [(⟨"KR1a0001", "乙", "序", "漢", "b. 100", some 100, none⟩ :
          PersonEvidence),
       ⟨"KR1a0001", "甲", "撰", "漢", "100-150", some 100, some 150⟩] =
        l1 ++ e :: l2 ∧
      (∀ x ∈ [(⟨"KR1a0001", "乙", "序", "漢", "b. 100", some 100, none⟩ :
          PersonEvidence),
        ⟨"KR1a0001", "甲", "撰", "漢", "100-150", some 100, some 150⟩],
        evidenceScore x ≤ evidenceScore e) ∧
      (∀ x ∈ l1, evidenceScore x < evidenceScore e) :=
  (c4_choose_best_evidence
    [⟨"KR1a0001", "乙", "序", "漢", "b. 100", some 100, none⟩,
     ⟨"KR1a0001", "甲", "撰", "漢", "100-150", some 100, some 150⟩]
    (by decide)).1

/-! ## Claim C5: catalog-tier abstention -/

theorem choose_best_evidence_ne_none {l : List PersonEvidence} (h : l ≠ []) :
    ∃ e, choose_best_evidence l = some e := by
  cases l with
  | nil => exact absurd rfl h
  | cons x rest =>
    unfold choose_best_evidence
    rw [chooseBestAux, if_pos (by have := evidenceScore_nonneg x; omega)]
    obtain ⟨e, he, _⟩ := chooseBestAux_spec rest x
    exact ⟨e, he⟩

/-- C5 counterexample: a work whose only catalog evidence has neither bound
still gets a `kr_catalog` row (`if best:` is true for any chosen record), not
the dynasty fallback the claim requires. -/
theorem c5_counterexample :
    ((fun w => if w = "KR1a0001" then
        [(⟨"KR1a0001", "甲", "序", "", "dates?", none, none⟩ : PersonEvidence)]
      else []) "KR1a0001" =
      [(⟨"KR1a0001", "甲", "序", "", "dates?", none, none⟩ : PersonEvidence)]) ∧
    (resolveDateRow ⟨"KR1", "KR1a0001", "t", "漢", "", "f", "p"⟩
        (fun _ => [])
        (fun w => if w = "KR1a0001" then
          [⟨"KR1a0001", "甲", "序", "", "dates?", none, none⟩] else [])
        DEFAULT_DYNASTY_RANGES).source = "kr_catalog" ∧
    (resolveDateRow ⟨"KR1", "KR1a0001", "t", "漢", "", "f", "p"⟩
        (fun _ => [])
        (fun w => if w = "KR1a0001" then
          [⟨"KR1a0001", "甲", "序", "", "dates?", none, none⟩] else [])
        DEFAULT_DYNASTY_RANGES).source ≠ "filename_dynasty" := by
  refine ⟨by decide, ?_, ?_⟩ <;> decide

/-- C5 (amended): when the cbdb tier abstains, a work with no PersonEvidence
records falls through to the dynasty fallback (source `filename_dynasty`,
bounds and note from `resolve_dynasty_range`, never `kr_catalog`); but
whenever evidence exists the catalog tier claims the work with a
`kr_catalog` row, even if the chosen evidence has neither bound. -/
theorem c5_catalog_abstention (book : ScanBook)
    (cbdb_people : String → List CBDBPerson)
    (kr_evidence : String → List PersonEvidence)
    (ranges : String → Option (Int × Int))
    (hcb : ¬ ∃ n p nb na dt, normalize_author_name book.author_label = some n ∧
      cbdb_people n = [p] ∧ cbdb_date_range p = (some nb, some na, dt)) :
    (kr_evidence book.work_id = [] →
      resolveDateRow book cbdb_people kr_evidence ranges =
        { work_id := book.work_id, source := "filename_dynasty",
          date_not_before := (resolve_dynasty_range book.dynasty_label ranges).1,
          date_not_after := (resolve_dynasty_range book.dynasty_label ranges).2.1,
          date_type := "dynasty_bound", confidence := "low",
          note := (resolve_dynasty_range book.dynasty_label ranges).2.2,
          ref := "" }) ∧
    (kr_evidence book.work_id ≠ [] →
      (resolveDateRow book cbdb_people kr_evidence ranges).source =
        "kr_catalog") := by
  rw [resolveDateRow_not_cbdb hcb]
  constructor
  · intro he
    unfold catalogOrDynasty
    simp [he]
  · intro he
    unfold catalogOrDynasty
    have hne : (kr_evidence book.work_id).isEmpty = false := by
      cases hk : kr_evidence book.work_id with
      | nil => exact absurd hk he
      | cons a l => rfl
    obtain ⟨e, hob⟩ := choose_best_evidence_ne_none he
    simp [hne, hob]

/-- C5 witness: a work with no evidence anywhere resolves through the
dynasty fallback (here via the `前漢` alias). -/
theorem c5_witness :
    resolveDateRow ⟨"KR1", "KR1a0001", "t", "前漢", "", "f", "p"⟩
        (fun _ => []) (fun _ => []) DEFAULT_DYNASTY_RANGES =
      { work_id := "KR1a0001", source := "filename_dynasty",
        date_not_before := some (-206), date_not_after := some 8,
        date_type := "dynasty_bound", confidence := "low",
        note := "dynasty_label=前漢 alias=西漢", ref := "" } := by
  have hcb : ¬ ∃ n p nb na dt,
      normalize_author_name
          (ScanBook.author_label ⟨"KR1", "KR1a0001", "t", "前漢", "", "f", "p"⟩) =
        some n ∧
      (fun _ => ([] : List CBDBPerson)) n = [p] ∧
      cbdb_date_range p = (some nb, some na, dt) := by
    rintro ⟨n, p, nb, na, dt, -, hp, -⟩
    exact absurd hp (by simp)
  have h := (c5_catalog_abstention ⟨"KR1", "KR1a0001", "t", "前漢", "", "f", "p"⟩
    (fun _ => []) (fun _ => []) DEFAULT_DYNASTY_RANGES hcb).1 rfl
  rw [h]
  decide

/-! ## Claim C9: exit codes -/

/-- C9: `main` returns 0 iff setup succeeded and at least one match was
found, 1 iff the query ran and found zero matches, and 2 iff the data
directory could not be resolved — in which case an error is reported and no
result output is produced. -/
theorem c9_exit_codes (setup : SetupOutcome) (variants : List (List Char))
    (limit : Int) (dedup : Bool) :
    ((mainModel setup variants limit dedup).exit_code = 0 ↔
      ∃ books, setup = .ok books ∧ scanLoop books variants limit dedup ≠ []) ∧
    ((mainModel setup variants limit dedup).exit_code = 1 ↔
      ∃ books, setup = .ok books ∧ scanLoop books variants limit dedup = []) ∧
    ((mainModel setup variants limit dedup).exit_code = 2 ↔
      ∃ msg, setup = .failure msg ∧
        (mainModel setup variants limit dedup).error_reported = true ∧
        (mainModel setup variants limit dedup).results = []) ∧
    ((mainModel setup variants limit dedup).results =
      match setup with
      | .ok books => scanLoop books variants limit dedup
      | .failure _ => []) := by
  cases setup with
  | failure msg => simp [mainModel]
  | ok books =>
    by_cases h : scanLoop books variants limit dedup = [] <;>
      simp [mainModel, h]

/-! ## Claim C10: date-range CSV loading -/

/-- The parsed candidates a CSV contributes for work id `wid`: rows whose
stripped id equals `wid` and whose two bound fields both parse as integers. -/
def rangeCandidates (rows : List RangeRow) (wid : List Char) : List (Int × Int) :=
  rows.filterMap fun row =>
    if rowField row.work_id = wid then
      match pyIntField row.date_not_before, pyIntField row.date_not_after with
      | some dnb, some dna => some (dnb, dna)
      | _, _ => none
    else none

def minPairStep (acc : Option (Int × Int)) (c : Int × Int) : Option (Int × Int) :=
  match acc with
  | none => some c
  | some cur => if pairCmp c cur = .lt then some c else some cur

/-- Spec-side definition: the lexicographically smallest pair in a list
(`none` for the empty list). -/
def lexMinPair (l : List (Int × Int)) : Option (Int × Int) :=
  l.foldl minPairStep none

theorem load_date_ranges_concat (rows : List RangeRow) (r : RangeRow) :
    load_date_ranges (rows ++ [r]) = dateRangeStep (load_date_ranges rows) r := by
  unfold load_date_ranges
  rw [List.foldl_append]
  rfl

theorem lexMinPair_concat (l : List (Int × Int)) (c : Int × Int) :
    lexMinPair (l ++ [c]) = minPairStep (lexMinPair l) c := by
  unfold lexMinPair
  rw [List.foldl_append]
  rfl

theorem rangeCandidates_concat (rows : List RangeRow) (r : RangeRow)
    (wid : List Char) :
    rangeCandidates (rows ++ [r]) wid =
      rangeCandidates rows wid ++ rangeCandidates [r] wid := by
  unfold rangeCandidates
  rw [List.filterMap_append]

theorem load_date_ranges_spec (rows : List RangeRow) :
    load_date_ranges rows [] = none ∧
    ∀ wid, wid ≠ [] →
      load_date_ranges rows wid = lexMinPair (rangeCandidates rows wid) := by
  induction rows using List.reverseRecOn with
  | nil => exact ⟨rfl, fun wid _ => rfl⟩
  | append_singleton rows r ih =>
    obtain ⟨ihnil, ihwid⟩ := ih
    rw [load_date_ranges_concat]
    by_cases h1 : rowField r.work_id = []
    · constructor
      · simp only [dateRangeStep, h1, if_pos rfl]
        exact ihnil
      · intro wid hwid
        rw [rangeCandidates_concat]
        have hne : ¬ (rowField r.work_id = wid) := by
          rw [h1]
          exact fun hh => hwid hh.symm
        have hc : rangeCandidates [r] wid = [] := by
          simp [rangeCandidates, hne]
        rw [hc, List.append_nil]
        simp only [dateRangeStep, h1, if_pos rfl]
        exact ihwid wid hwid
    · cases hp1 : pyIntField r.date_not_before with
      | none =>
        have hstep : dateRangeStep (load_date_ranges rows) r =
            load_date_ranges rows := by
          simp only [dateRangeStep, if_neg h1, hp1]
        rw [hstep]
        refine ⟨ihnil, fun wid hwid => ?_⟩
        rw [rangeCandidates_concat]
        have hc : rangeCandidates [r] wid = [] := by
          by_cases h2 : rowField r.work_id = wid <;>
            simp [rangeCandidates, h2, hp1]
        rw [hc, List.append_nil]
        exact ihwid wid hwid
      | some dnb =>
        cases hp2 : pyIntField r.date_not_after with
        | none =>
          have hstep : dateRangeStep (load_date_ranges rows) r =
              load_date_ranges rows := by
            simp only [dateRangeStep, if_neg h1, hp1, hp2]
          rw [hstep]
          refine ⟨ihnil, fun wid hwid => ?_⟩
          rw [rangeCandidates_concat]
          have hc : rangeCandidates [r] wid = [] := by
            by_cases h2 : rowField r.work_id = wid <;>
              simp [rangeCandidates, h2, hp1, hp2]
          rw [hc, List.append_nil]
          exact ihwid wid hwid
        | some dna =>
          have hstep : ∀ k, dateRangeStep (load_date_ranges rows) r k =
              if k = rowField r.work_id then
                minPairStep (load_date_ranges rows (rowField r.work_id)) (dnb, dna)
              else load_date_ranges rows k := by
            intro k
            simp only [dateRangeStep, if_neg h1, hp1, hp2]
            cases hcur : load_date_ranges rows (rowField r.work_id) with
            | none => simp [minPairStep, hcur]
            | some cur =>
              simp only [hcur, minPairStep]
              by_cases hlt : pairCmp (dnb, dna) cur = .lt
              · simp only [if_pos hlt]
              · simp only [if_neg hlt]
                by_cases hk : k = rowField r.work_id
                · subst hk
                  simp [hcur]
                · simp [hk]
          constructor
          · rw [hstep, if_neg (fun hh => h1 hh.symm)]
            exact ihnil
          · intro wid hwid
            rw [hstep, rangeCandidates_concat]
            by_cases h2 : wid = rowField r.work_id
            · have hc : rangeCandidates [r] wid = [(dnb, dna)] := by
                simp [rangeCandidates, h2.symm, hp1, hp2]
              rw [if_pos h2, hc, lexMinPair_concat, ← h2,
                ihwid wid hwid]
            · have hne : ¬ (rowField r.work_id = wid) := fun hh => h2 hh.symm
              have hc : rangeCandidates [r] wid = [] := by
                simp [rangeCandidates, hne, hp1, hp2]
              rw [if_neg h2, hc, List.append_nil]
              exact ihwid wid hwid

theorem LawfulCmp.refl_eq {α : Type} {C : α → α → Ordering} (h : LawfulCmp C)
    (a : α) : C a a = .eq := by
  cases hc : C a a with
  | eq => rfl
  | lt =>
    have hs := h.swap_eq a a
    rw [hc] at hs
    exact absurd hs (by decide)
  | gt =>
    have hs := h.swap_eq a a
    rw [hc] at hs
    exact absurd hs (by decide)

theorem lexMinPair_spec (l : List (Int × Int)) :
    (lexMinPair l = none ↔ l = []) ∧
    (∀ v, lexMinPair l = some v → v ∈ l ∧ ∀ c ∈ l, pairCmp c v ≠ .lt) := by
  induction l using List.reverseRecOn with
  | nil =>
    exact ⟨by simp [lexMinPair], fun v hv => by simp [lexMinPair] at hv⟩
  | append_singleton l c ih =>
    obtain ⟨ih1, ih2⟩ := ih
    rw [lexMinPair_concat]
    constructor
    · cases hm : lexMinPair l with
      | none => simp [minPairStep]
      | some cur =>
        simp only [minPairStep]
        split_ifs <;> simp
    · intro v hv
      cases hm : lexMinPair l with
      | none =>
        have hl : l = [] := ih1.mp hm
        subst hl
        rw [hm] at hv
        simp only [minPairStep, Option.some.injEq] at hv
        subst hv
        refine ⟨by simp, ?_⟩
        intro x hx
        simp only [List.nil_append, List.mem_singleton] at hx
        subst hx
        rw [pairCmp_lawful.refl_eq]
        decide
      | some cur =>
        rw [hm] at hv
        obtain ⟨hmem, hmin⟩ := ih2 cur hm
        simp only [minPairStep] at hv
        split_ifs at hv with hlt
        · injection hv with hv
          subst hv
          refine ⟨List.mem_append_right _ (by simp), ?_⟩
          intro x hx
          rcases List.mem_append.mp hx with hx | hx
          · intro hxv
            exact hmin x hx (pairCmp_lawful.lt_trans x c cur hxv hlt)
          · simp only [List.mem_singleton] at hx
            subst hx
            rw [pairCmp_lawful.refl_eq]
            decide
        · injection hv with hv
          subst hv
          refine ⟨List.mem_append_left _ hmem, ?_⟩
          intro x hx
          rcases List.mem_append.mp hx with hx | hx
          · exact hmin x hx
          · simp only [List.mem_singleton] at hx
            subst hx
            exact hlt

/-- C10: `load_date_ranges` skips rows with a blank work id or a missing or
non-integer bound field (a work with only such rows stays unknown), and
among several parseable rows for one work id keeps the lexicographically
smallest `(date_not_before, date_not_after)` pair. -/
theorem c10_load_date_ranges (rows : List RangeRow) (wid : List Char)
    (hwid : wid ≠ []) :
    load_date_ranges rows wid = lexMinPair (rangeCandidates rows wid) ∧
    load_date_ranges rows [] = none ∧
    (load_date_ranges rows wid = none ↔ rangeCandidates rows wid = []) ∧
    (∀ v, load_date_ranges rows wid = some v →
      v ∈ rangeCandidates rows wid ∧
        ∀ c ∈ rangeCandidates rows wid, pairCmp c v ≠ .lt) := by
  obtain ⟨h1, h2⟩ := load_date_ranges_spec rows
  have heq := h2 wid hwid
  obtain ⟨g1, g2⟩ := lexMinPair_spec (rangeCandidates rows wid)
  exact ⟨heq, h1, by rw [heq]; exact g1, fun v hv => g2 v (heq ▸ hv)⟩

/-- C10 witness: two parseable rows for `w1`; the lexicographically smaller
pair `(1, 3)` wins. -/
theorem c10_witness :
    load_date_ranges
        [⟨some "w1".toList, some "2".toList, some "9".toList⟩,
         ⟨some "w1".toList, some "1".toList, some "3".toList⟩] "w1".toList =
      lexMinPair (rangeCandidates
        [⟨some "w1".toList, some "2".toList, some "9".toList⟩,
         ⟨some "w1".toList, some "1".toList, some "3".toList⟩] "w1".toList) ∧
    load_date_ranges
        [⟨some "w1".toList, some "2".toList, some "9".toList⟩,
         ⟨some "w1".toList, some "1".toList, some "3".toList⟩] "w1".toList =
      some (1, 3) :=
  ⟨(c10_load_date_ranges
      [⟨some "w1".toList, some "2".toList, some "9".toList⟩,
       ⟨some "w1".toList, some "1".toList, some "3".toList⟩] "w1".toList
      (by decide)).1,
    by decide⟩

/-! ## Claim C1: the catalog order -/

/-- C1 counterexample: a book with both bounds known but
`date_not_before = 10^9 + 1` sorts *after* a fully-unknown book, because the
unknown sentinel is the finite key `(10^9, 10^9)`. -/
theorem c1_counterexample :
    (Book.mk "a".toList [] [] [] "pa".toList (some (10 ^ 9 + 1)) (some 0)
        none).date_not_before ≠ none ∧
    (Book.mk "a".toList [] [] [] "pa".toList (some (10 ^ 9 + 1)) (some 0)
        none).date_not_after ≠ none ∧
    (Book.mk "b".toList [] [] [] "pb".toList none none
        none).date_not_before = none ∧
    bookLt (Book.mk "b".toList [] [] [] "pb".toList none none none)
      (Book.mk "a".toList [] [] [] "pa".toList (some (10 ^ 9 + 1)) (some 0)
        none) := by
  refine ⟨by decide, by decide, rfl, by decide⟩

/-- C1 (amended): `load_books` returns the built list sorted by the key
order; for two books with both bounds known, one sorts strictly before the
other iff its `(date_not_before, date_not_after)` pair is lexicographically
smaller, with ties broken by work id then relative path; and a book with an
unknown bound sorts after every both-known book whose date pair is
lexicographically below the sentinel `UNKNOWN_DATE_KEY = (10^9, 10^9)`
(known pairs at or above the sentinel can sort after the unknown book). -/
theorem c1_book_order (rows : List BookRow)
    (dr : List Char → Option (Int × Int)) (a b u : Book)
    (anb ana bnb bna : Int)
    (ha1 : a.date_not_before = some anb) (ha2 : a.date_not_after = some ana)
    (hb1 : b.date_not_before = some bnb) (hb2 : b.date_not_after = some bna)
    (hu : u.date_not_before = none ∨ u.date_not_after = none)
    (hsent : anb < 10 ^ 9 ∨ (anb = 10 ^ 9 ∧ ana < 10 ^ 9)) :
    (load_books rows dr).Sorted bookLe ∧
    (load_books rows dr).Perm (buildBooks rows dr) ∧
    (bookLt a b ↔
      (anb < bnb ∨ (anb = bnb ∧ ana < bna)) ∨
      (anb = bnb ∧ ana = bna ∧
        (cmpChars a.work_id b.work_id).then
          (cmpChars a.rel_path b.rel_path) = .lt)) ∧
    bookLt a u ∧ ¬ bookLt u a := by
  have hka : book_sort_key a = ⟨anb, ana, a.work_id, a.rel_path⟩ := by
    unfold book_sort_key
    rw [ha1, ha2]
  have hkb : book_sort_key b = ⟨bnb, bna, b.work_id, b.rel_path⟩ := by
    unfold book_sort_key
    rw [hb1, hb2]
  have hku : book_sort_key u =
      ⟨UNKNOWN_DATE_KEY.1, UNKNOWN_DATE_KEY.2, u.work_id, u.rel_path⟩ := by
    cases h2 : u.date_not_before with
    | none => cases h3 : u.date_not_after <;> simp [book_sort_key, h2, h3]
    | some x =>
      have h3 : u.date_not_after = none := by
        rcases hu with h | h
        · rw [h2] at h
          exact absurd h (by simp)
        · exact h
      simp [book_sort_key, h2, h3]
  have hau : bookLt a u := by
    unfold bookLt
    rw [hka, hku]
    unfold keyCmp
    simp only
    rw [then_lt_iff]
    rcases hsent with hs | ⟨hs1, hs2⟩
    · exact Or.inl (cmpInt_lt_iff.mpr hs)
    · refine Or.inr ⟨cmpInt_eq_iff.mpr hs1, ?_⟩
      rw [then_lt_iff]
      exact Or.inl (cmpInt_lt_iff.mpr hs2)
  refine ⟨List.sorted_insertionSort bookLe _, List.perm_insertionSort bookLe _,
    ?_, hau, ?_⟩
  · unfold bookLt
    rw [hka, hkb]
    unfold keyCmp
    simp only [then_lt_iff, cmpInt_lt_iff, cmpInt_eq_iff]
    tauto
  · intro hc
    have hs := keyCmp_lawful.swap_eq (book_sort_key u) (book_sort_key a)
    unfold bookLt at hc hau
    rw [hc, hau] at hs
    exact absurd hs (by decide)

/-- C1 witness: on concrete books, `(100,200)` sorts before `(100,300)` by
the second component, and before an unknown-dated book. -/
theorem c1_witness :
    bookLt (Book.mk "a".toList [] [] [] "pa".toList (some 100) (some 200) none)
        (Book.mk "b".toList [] [] [] "pb".toList (some 100) (some 300) none) ∧
    bookLt (Book.mk "a".toList [] [] [] "pa".toList (some 100) (some 200) none)
        (Book.mk "u".toList [] [] [] "pu".toList none (some 5) none) := by
  have h := c1_book_order []
    (fun _ => none)
    (Book.mk "a".toList [] [] [] "pa".toList (some 100) (some 200) none)
    (Book.mk "b".toList [] [] [] "pb".toList (some 100) (some 300) none)
    (Book.mk "u".toList [] [] [] "pu".toList none (some 5) none)
    100 200 100 300 rfl rfl rfl rfl (Or.inl rfl) (Or.inl (by decide))
  exact ⟨h.2.2.1.mpr (Or.inl (Or.inr ⟨rfl, by decide⟩)), h.2.2.2.1⟩

/-! ## Claim C2: the scan loop, caps and dedup -/

theorem capTake_length_le {α : Type} (l : List α) (r : Int) (hr : 1 ≤ r) :
    (capTake (some r) l).length ≤ r.toNat := by
  induction l generalizing r with
  | nil => simp [capTake]
  | cons x xs ih =>
    rw [capTake]
    split_ifs with h
    · simp only [List.length_singleton]
      omega
    · simp only [List.length_cons]
      have := ih (r - 1) (by omega)
      omega

theorem capTake_one {α : Type} (l : List α) : capTake (some 1) l = l.take 1 := by
  cases l <;> simp [capTake]

theorem capTake_eq_nil_iff {α : Type} (c : Option Int) (l : List α) :
    capTake c l = [] ↔ l = [] := by
  cases l with
  | nil => cases c <;> simp [capTake]
  | cons x xs =>
    cases c with
    | none => simp [capTake]
    | some r =>
      rw [capTake]
      split_ifs <;> simp

theorem capTake_subset {α : Type} {c : Option Int} {l : List α} {x : α}
    (h : x ∈ capTake c l) : x ∈ l := by
  induction l generalizing c with
  | nil => simp [capTake] at h
  | cons y ys ih =>
    cases c with
    | none =>
      rw [capTake] at h
      rcases List.mem_cons.mp h with rfl | h2
      · exact List.mem_cons_self _ _
      · exact List.mem_cons_of_mem _ (ih h2)
    | some r =>
      rw [capTake] at h
      split_ifs at h with hr
      · simp only [List.mem_singleton] at h
        subst h
        exact List.mem_cons_self _ _
      · rcases List.mem_cons.mp h with rfl | h2
        · exact List.mem_cons_self _ _
        · exact List.mem_cons_of_mem _ (ih h2)

theorem ne_nil_iff_exists_mem {α : Type} {l : List α} :
    l ≠ [] ↔ ∃ x, x ∈ l := by
  cases l <;> simp

theorem iter_matches_work_id {book : Book} {variants : List (List Char)}
    {c : Option Int} {m : MatchRec} (h : m ∈ iter_matches book variants c) :
    m.work_id = book.work_id := by
  unfold iter_matches at h
  have h2 := capTake_subset h
  unfold bookMatches at h2
  cases ht : book.text with
  | none =>
    rw [ht] at h2
    simp at h2
  | some lines =>
    rw [ht] at h2
    obtain ⟨nl, _, hm⟩ := List.mem_flatMap.mp h2
    obtain ⟨p, _, hp⟩ := List.mem_map.mp hm
    rw [← hp]

/-- Whether a book's text contains at least one occurrence of some variant
(false when the file is missing). -/
def bookHasOccB (book : Book) (variants : List (List Char)) : Bool :=
  match book.text with
  | none => false
  | some lines =>
    lines.any fun line => variants.any fun t =>
      !t.isEmpty && (strFind line t 0).isSome

theorem iter_line_matches_ne_nil_iff {line : List Char}
    {variants : List (List Char)} :
    iter_line_matches line variants ≠ [] ↔
      ∃ t ∈ variants, t ≠ [] ∧ ∃ i, occursAt line t i := by
  rw [ne_nil_iff_exists_mem]
  constructor
  · rintro ⟨p, hp⟩
    unfold iter_line_matches at hp
    rw [List.mem_insertionSort] at hp
    obtain ⟨t, ht, hpt⟩ := List.mem_flatMap.mp hp
    obtain ⟨hne, hp2, hocc⟩ := lineTermMatches_mem hpt
    exact ⟨t, ht, hne, p.1, hocc⟩
  · rintro ⟨t, ht, hne, i, hocc⟩
    obtain ⟨j, hj, _, _⟩ := lineTermMatches_complete hne hocc
    refine ⟨(j, t), ?_⟩
    unfold iter_line_matches
    rw [List.mem_insertionSort]
    exact List.mem_flatMap.mpr ⟨t, ht, hj⟩

theorem bookHasOccB_iff (book : Book) (variants : List (List Char)) :
    bookHasOccB book variants = true ↔
      ∃ lines, book.text = some lines ∧ ∃ line ∈ lines, ∃ t ∈ variants,
        t ≠ [] ∧ ∃ i, occursAt line t i := by
  unfold bookHasOccB
  cases ht : book.text with
  | none => simp
  | some lines =>
    simp only [List.any_eq_true, Bool.and_eq_true, Bool.not_eq_true',
      List.isEmpty_eq_false, Option.some.injEq]
    constructor
    · rintro ⟨line, hline, t, htv, hne, hfind⟩
      obtain ⟨i, hi⟩ := (strFind_isSome_iff hne).mp hfind
      exact ⟨lines, rfl, line, hline, t, htv, hne, i, hi⟩
    · rintro ⟨lines', hl, line, hline, t, htv, hne, i, hi⟩
      subst hl
      exact ⟨line, hline, t, htv, hne,
        (strFind_isSome_iff hne).mpr ⟨i, hi⟩⟩

theorem bookMatches_ne_nil_iff (book : Book) (variants : List (List Char)) :
    bookMatches book variants ≠ [] ↔ bookHasOccB book variants = true := by
  rw [bookHasOccB_iff]
  unfold bookMatches
  cases ht : book.text with
  | none => simp
  | some lines =>
    rw [ne_nil_iff_exists_mem]
    constructor
    · rintro ⟨m, hm⟩
      obtain ⟨nl, hnl, hm2⟩ := List.mem_flatMap.mp hm
      obtain ⟨p, hp, _⟩ := List.mem_map.mp hm2
      have hline : nl.2 ∈ lines := by
        have := List.mem_map_of_mem Prod.snd hnl
        rwa [List.enumFrom_map_snd] at this
      have hne : iter_line_matches nl.2 variants ≠ [] :=
        ne_nil_iff_exists_mem.mpr ⟨p, hp⟩
      obtain ⟨t, htv, htne, i, hi⟩ := iter_line_matches_ne_nil_iff.mp hne
      exact ⟨lines, rfl, nl.2, hline, t, htv, htne, i, hi⟩
    · rintro ⟨lines', hl, line, hline, t, htv, htne, i, hi⟩
      injection hl with hl
      subst hl
      have hline2 : line ∈ List.map Prod.snd (List.enumFrom 1 lines) := by
        rwa [List.enumFrom_map_snd]
      obtain ⟨nl, hnl, hnl2⟩ := List.mem_map.mp hline2
      obtain ⟨p, hp⟩ := ne_nil_iff_exists_mem.mp
        (iter_line_matches_ne_nil_iff.mpr ⟨t, htv, htne, i, hnl2 ▸ hi⟩)
      exact ⟨⟨book.work_id, nl.1, p.1, p.2, nl.2⟩,
        List.mem_flatMap.mpr ⟨nl, hnl,
          List.mem_map.mpr ⟨p, hp, rfl⟩⟩⟩

theorem iter_matches_ne_nil_iff (book : Book) (variants : List (List Char))
    (c : Option Int) :
    iter_matches book variants c ≠ [] ↔ bookHasOccB book variants = true := by
  unfold iter_matches
  rw [← bookMatches_ne_nil_iff book variants]
  constructor
  · intro h hc
    exact h (by rw [hc]; cases c <;> rfl)
  · intro h hc
    exact h ((capTake_eq_nil_iff c _).mp hc)

theorem scanLoopAux_length (variants : List (List Char)) (limit : Int)
    (dedup : Bool) (books : List Book) (acc : List MatchRec)
    (hacc : (acc.length : Int) ≤ limit) :
    ((scanLoopAux variants limit dedup books acc).length : Int) ≤ limit := by
  induction books generalizing acc with
  | nil => exact hacc
  | cons book rest ih =>
    rw [scanLoopAux]
    by_cases h : limit - (acc.length : Int) ≤ 0
    · rw [if_pos h]
      exact hacc
    · rw [if_neg h]
      apply ih
      rw [List.length_append]
      set r : Int := if dedup = true then 1 else limit - (acc.length : Int)
        with hr
      have hr1 : 1 ≤ r := by
        rw [hr]
        split_ifs <;> omega
      have hr2 : r ≤ limit - (acc.length : Int) := by
        rw [hr]
        split_ifs <;> omega
      have hcap : (iter_matches book variants (some r)).length ≤ r.toNat :=
        capTake_length_le (bookMatches book variants) r hr1
      push_cast
      omega

theorem scanLoopAux_dedup_ids (variants : List (List Char)) (limit : Int)
    (books : List Book) (acc : List MatchRec)
    (hbooks : (books.map Book.work_id).Pairwise (· ≠ ·))
    (hacc : (acc.map MatchRec.work_id).Pairwise (· ≠ ·))
    (hdisj : ∀ m ∈ acc, ∀ bk ∈ books, m.work_id ≠ bk.work_id) :
    ((scanLoopAux variants limit true books acc).map
      MatchRec.work_id).Pairwise (· ≠ ·) := by
  induction books generalizing acc with
  | nil => exact hacc
  | cons book rest ih =>
    rw [scanLoopAux]
    by_cases h : limit - (acc.length : Int) ≤ 0
    · rw [if_pos h]
      exact hacc
    · rw [if_neg h]
      have hone : (if (true : Bool) = true then (1 : Int)
          else limit - (acc.length : Int)) = 1 := rfl
      rw [hone]
      rw [List.map_cons, List.pairwise_cons] at hbooks
      refine ih _ hbooks.2 ?_ ?_
      · rw [List.map_append, List.pairwise_append]
        refine ⟨hacc, ?_, ?_⟩
        · have hlen : (iter_matches book variants (some 1)).length ≤ 1 :=
            capTake_length_le (bookMatches book variants) 1 (by omega)
          cases hit : iter_matches book variants (some 1) with
          | nil => simp
          | cons m ms =>
            cases ms with
            | nil => simp
            | cons m2 ms2 =>
              rw [hit] at hlen
              simp at hlen
        · intro x hx y hy
          obtain ⟨m, hm, hmx⟩ := List.mem_map.mp hx
          obtain ⟨m2, hm2, hmy⟩ := List.mem_map.mp hy
          rw [← hmx, ← hmy, iter_matches_work_id hm2]
          exact hdisj m hm book (List.mem_cons_self _ _)
      · intro m hm bk hbk
        rcases List.mem_append.mp hm with hm2 | hm2
        · exact hdisj m hm2 bk (List.mem_cons_of_mem _ hbk)
        · rw [iter_matches_work_id hm2]
          exact hbooks.1 bk.work_id (List.mem_map_of_mem Book.work_id hbk)

theorem scanLoopAux_dedup_count (variants : List (List Char)) (limit : Int)
    (books : List Book) (acc : List MatchRec)
    (hacc : (acc.length : Int) ≤ limit) (hlim : 1 ≤ limit) :
    ((scanLoopAux variants limit true books acc).length : Int) =
      min limit
        (acc.length + (books.countP fun b => bookHasOccB b variants)) := by
  induction books generalizing acc with
  | nil =>
    rw [scanLoopAux]
    simp only [List.countP_nil]
    omega
  | cons book rest ih =>
    rw [scanLoopAux]
    by_cases h : limit - (acc.length : Int) ≤ 0
    · rw [if_pos h]
      have hcnt : (0 : Int) ≤ (List.countP (fun b => bookHasOccB b variants)
          (book :: rest) : Int) := by positivity
      omega
    · rw [if_neg h]
      have hone : (if (true : Bool) = true then (1 : Int)
          else limit - (acc.length : Int)) = 1 := rfl
      rw [hone, List.countP_cons]
      by_cases hm : bookHasOccB book variants = true
      · have hne : iter_matches book variants (some 1) ≠ [] :=
          (iter_matches_ne_nil_iff book variants (some 1)).mpr hm
        have hlen1 : (iter_matches book variants (some 1)).length = 1 := by
          have hle : (iter_matches book variants (some 1)).length ≤ 1 :=
            capTake_length_le (bookMatches book variants) 1 (by omega)
          have hpos : 0 < (iter_matches book variants (some 1)).length :=
            List.length_pos.mpr hne
          omega
        rw [ih]
        · rw [List.length_append, hlen1]
          simp only [hm, if_true]
          push_cast
          omega
        · rw [List.length_append, hlen1]
          push_cast
          omega
      · have hnil : iter_matches book variants (some 1) = [] := by
          by_contra hc
          exact hm ((iter_matches_ne_nil_iff book variants (some 1)).mp hc)
        rw [hnil, List.append_nil, ih acc hacc]
        simp only [hm, if_false]
        push_cast
        omega

/-- C2: the scan loop never returns more than `limit` matches; with dedup
enabled no two matches share a work id (given the catalog invariant that
work ids are unique), and the result count is exactly
`min limit (number of books whose text contains an occurrence of some
variant)`. -/
theorem c2_scan_loop (books : List Book) (variants : List (List Char))
    (limit : Int) (dedup : Bool)
    (hids : (books.map Book.work_id).Pairwise (· ≠ ·)) (hlim : 1 ≤ limit) :
    ((scanLoop books variants limit dedup).length : Int) ≤ limit ∧
    ((scanLoop books variants limit true).map
      MatchRec.work_id).Pairwise (· ≠ ·) ∧
    ((scanLoop books variants limit true).length : Int) =
      min limit (books.countP fun b => bookHasOccB b variants) ∧
    ∀ b : Book, (bookHasOccB b variants = true ↔
      ∃ lines, b.text = some lines ∧ ∃ line ∈ lines, ∃ t ∈ variants,
        t ≠ [] ∧ ∃ i, occursAt line t i) := by
  refine ⟨?_, ?_, ?_, fun b => bookHasOccB_iff b variants⟩
  · exact scanLoopAux_length variants limit dedup books [] (by simp; omega)
  · exact scanLoopAux_dedup_ids variants limit books [] hids (by simp)
      (by simp)
  · have h := scanLoopAux_dedup_count variants limit books [] (by simp; omega)
      hlim
    unfold scanLoop
    rw [h]
    simp

/-- C2 witness: two books both containing the term, limit 1, dedup on — the
result has exactly one match. -/
theorem c2_witness :
    ((scanLoop
        [Book.mk "a".toList [] [] [] "pa".toList none none
          (some ["xy".toList]),
         Book.mk "b".toList [] [] [] "pb".toList none none
          (some ["xy".toList])]
        ["y".toList] 1 true).length : Int) =
      min 1 ([Book.mk "a".toList [] [] [] "pa".toList none none
          (some ["xy".toList]),
        Book.mk "b".toList [] [] [] "pb".toList none none
          (some ["xy".toList])].countP
        fun b => bookHasOccB b ["y".toList]) :=
  (c2_scan_loop
    [Book.mk "a".toList [] [] [] "pa".toList none none (some ["xy".toList]),
     Book.mk "b".toList [] [] [] "pb".toList none none (some ["xy".toList])]
    ["y".toList] 1 true (by decide) (by decide)).2.2.1

/-! ## Claim C7: per-line matching -/

/-- C7: `iter_line_matches` returns exactly the greedy non-overlapping
occurrences of each non-empty variant: every reported pair is a genuine
occurrence of a listed non-empty variant; every occurrence of every
non-empty variant overlaps a reported occurrence of that same variant (so
occurrences of different variants are all reported independently, and may
overlap each other); two reported occurrences of the same variant start at
least the variant's length apart; and the result is ordered by offset
ascending with ties broken by the variant string value. -/
theorem c7_iter_line_matches (line : List Char) (variants : List (List Char)) :
    (∀ p ∈ iter_line_matches line variants,
      p.2 ∈ variants ∧ p.2 ≠ [] ∧ occursAt line p.2 p.1) ∧
    (∀ t ∈ variants, t ≠ [] → ∀ i, occursAt line t i →
      ∃ j, (j, t) ∈ iter_line_matches line variants ∧ j ≤ i ∧
        i < j + t.length) ∧
    (∀ t i j, (i, t) ∈ iter_line_matches line variants →
      (j, t) ∈ iter_line_matches line variants → i < j →
      i + t.length ≤ j) ∧
    (iter_line_matches line variants).Sorted matchLe := by
  refine ⟨?_, ?_, ?_, List.sorted_insertionSort matchLe _⟩
  · intro p hp
    unfold iter_line_matches at hp
    rw [List.mem_insertionSort] at hp
    obtain ⟨t, ht, hpt⟩ := List.mem_flatMap.mp hp
    obtain ⟨hne, h2, hocc⟩ := lineTermMatches_mem hpt
    rw [← h2] at ht hne hocc
    exact ⟨ht, hne, hocc⟩
  · intro t ht hne i hocc
    obtain ⟨j, hj, hji, hij⟩ := lineTermMatches_complete hne hocc
    refine ⟨j, ?_, hji, hij⟩
    unfold iter_line_matches
    rw [List.mem_insertionSort]
    exact List.mem_flatMap.mpr ⟨t, ht, hj⟩
  · intro t i j hi hj hij
    unfold iter_line_matches at hi hj
    rw [List.mem_insertionSort] at hi hj
    obtain ⟨t1, ht1, hp1⟩ := List.mem_flatMap.mp hi
    obtain ⟨t2, ht2, hp2⟩ := List.mem_flatMap.mp hj
    have e1 : t = t1 := (lineTermMatches_mem hp1).2.1
    have e2 : t = t2 := (lineTermMatches_mem hp2).2.1
    subst e1
    rw [← e2] at hp2
    exact lineTermMatches_gap hp1 hp2 hij

/-- C7 witness: in the line `abab`, variant `ab` matches greedily at 0 and
2, and the occurrence at index 2 is reported with the right coverage. -/
theorem c7_witness :
    ∃ j, (j, "ab".toList) ∈ iter_line_matches "abab".toList ["ab".toList] ∧
      j ≤ 2 ∧ 2 < j + "ab".toList.length :=
  (c7_iter_line_matches "abab".toList ["ab".toList]).2.1 "ab".toList
    (by decide) (by decide) 2 (by decide)

/-! ## Claim C8: snippet rendering -/

theorem replaceTabs_length (s : List Char) :
    (replaceTabs s).length = s.length := List.length_map _ _

theorem replaceTabs_occursAt {line term : List Char} {offset : Nat}
    (h : occursAt line term offset) :
    occursAt (replaceTabs line) (replaceTabs term) offset := by
  unfold occursAt at *
  unfold replaceTabs
  rw [← List.map_drop]
  exact h.map _

theorem pyRstrip_decomp (s : List Char) :
    ∃ t, s = pyRstrip s ++ t ∧ ∀ c ∈ t, isPySpace c = true := by
  have h : s.reverse.takeWhile isPySpace ++ s.reverse.dropWhile isPySpace =
      s.reverse := List.takeWhile_append_dropWhile _ _
  have h2 := congrArg List.reverse h
  rw [List.reverse_append, List.reverse_reverse] at h2
  refine ⟨(s.reverse.takeWhile isPySpace).reverse, h2.symm, ?_⟩
  intro c hc
  rw [List.mem_reverse] at hc
  exact List.mem_takeWhile_imp hc

theorem pyRstrip_prefix_bound {line term : List Char} {offset : Nat}
    (hocc : occursAt line term offset) (hne : term ≠ [])
    (hlast : isPySpace (term.getLast hne) = false) :
    offset + term.length ≤ (pyRstrip (replaceTabs line)).length := by
  obtain ⟨t, hdec, hws⟩ := pyRstrip_decomp (replaceTabs line)
  set L := pyRstrip (replaceTabs line) with hdefL
  by_contra hc
  push_neg at hc
  have hpre : replaceTabs term <+: (replaceTabs line).drop offset :=
    replaceTabs_occursAt hocc
  have hterm_pos : 0 < term.length := List.length_pos.mpr hne
  have hlen_line : offset + term.length ≤ line.length :=
    occursAt_le_length hne hocc
  have hRlen : (replaceTabs line).length = line.length := replaceTabs_length line
  have hRTlen : (replaceTabs term).length = term.length := replaceTabs_length term
  have hb1 : term.length - 1 < (replaceTabs term).length := by omega
  have hlt : offset + (term.length - 1) < (replaceTabs line).length := by omega
  have e1 : (replaceTabs term).get ⟨term.length - 1, hb1⟩ =
      ((replaceTabs line).drop offset).get
        ⟨term.length - 1, by rw [List.length_drop]; omega⟩ := by
    rw [List.get_eq_getElem, List.get_eq_getElem]
    exact hpre.getElem hb1
  have e2 : ((replaceTabs line).drop offset).get
        ⟨term.length - 1, by rw [List.length_drop]; omega⟩ =
      (replaceTabs line).get ⟨offset + (term.length - 1), hlt⟩ := by
    rw [List.get_eq_getElem, List.get_eq_getElem]
    exact List.getElem_drop _
  have e3 : (replaceTabs term).get ⟨term.length - 1, hb1⟩ =
      (fun c => if c = '\t' then ' ' else c)
        (term.get ⟨term.length - 1, by omega⟩) := by
    rw [List.get_eq_getElem, List.get_eq_getElem]
    exact List.getElem_map _
  have hlast_ne : term.getLast hne ≠ '\t' := by
    intro hx
    rw [hx] at hlast
    exact absurd hlast (by decide)
  have e4 : term.get ⟨term.length - 1, by omega⟩ = term.getLast hne := by
    rw [List.get_eq_getElem, List.getLast_eq_getElem]
  have echar : (replaceTabs line).get ⟨offset + (term.length - 1), hlt⟩ =
      term.getLast hne := by
    rw [← e2, ← e1, e3, e4]
    show (if term.getLast hne = '\t' then ' ' else term.getLast hne) =
      term.getLast hne
    rw [if_neg hlast_ne]
  have hlen2 : (replaceTabs line).length = L.length + t.length := by
    rw [hdec, List.length_append]
  have hjt : offset + (term.length - 1) - L.length < t.length := by omega
  have eget : (replaceTabs line).get ⟨offset + (term.length - 1), hlt⟩ =
      t.get ⟨offset + (term.length - 1) - L.length, hjt⟩ := by
    rw [List.get_eq_getElem, List.get_eq_getElem,
      List.getElem_of_eq hdec hlt]
    exact List.getElem_append_right (by omega)
  have hmem : t.get ⟨offset + (term.length - 1) - L.length, hjt⟩ ∈ t :=
    List.get_mem t _ hjt
  have hsp := hws _ hmem
  rw [← eget, echar, hlast] at hsp
  exact absurd hsp (by decide)

theorem cleaned_match_slice {line term : List Char} {offset : Nat}
    (hocc : occursAt line term offset) (hne : term ≠ [])
    (hlast : isPySpace (term.getLast hne) = false) :
    pySlice (pyRstrip (replaceTabs line)) offset (offset + term.length) =
      replaceTabs term := by
  obtain ⟨t, hdec, _⟩ := pyRstrip_decomp (replaceTabs line)
  have hbound := pyRstrip_prefix_bound hocc hne hlast
  set L := pyRstrip (replaceTabs line) with hdefL
  have htake : L.take (offset + term.length) =
      (replaceTabs line).take (offset + term.length) := by
    rw [hdec, List.take_append_eq_append_take]
    have hz : offset + term.length - L.length = 0 := by omega
    rw [hz, List.take_zero, List.append_nil]
  unfold pySlice
  rw [htake, List.drop_take]
  have harith : offset + term.length - offset = term.length := by omega
  rw [harith]
  have hpre : replaceTabs term <+: (replaceTabs line).drop offset :=
    replaceTabs_occursAt hocc
  obtain ⟨rest, hrest⟩ := hpre
  rw [← hrest]
  have hRTlen : (replaceTabs term).length = term.length :=
    replaceTabs_length term
  rw [← hRTlen, List.take_left]

/-- C8: `render_snippet` replaces each tab by a single space (a
length-preserving, position-preserving substitution), trims trailing
whitespace (under which the match survives, since variants do not end in
whitespace), and returns the matched substring — the tab-normalized term —
bracketed, with at most `context` characters of the cleaned line on each
side, prepending/appending `...` exactly when characters of the cleaned
line were dropped on that side; a final `strip()` is applied. -/
theorem c8_render_snippet (line : List Char) (offset : Nat) (term : List Char)
    (context : Int) (hocc : occursAt line term offset) (hne : term ≠ [])
    (hlast : isPySpace (term.getLast hne) = false) :
    ((replaceTabs line).length = line.length ∧
      ∀ i (h : i < line.length),
        (replaceTabs line).get ⟨i, by rw [replaceTabs_length]; exact h⟩ =
          if line.get ⟨i, h⟩ = '\t' then ' ' else line.get ⟨i, h⟩) ∧
    offset + term.length ≤ (pyRstrip (replaceTabs line)).length ∧
    render_snippet line offset term context =
      pyStrip
        ((if 0 < offset - (max context 0).toNat then dots else []) ++
          pySlice (pyRstrip (replaceTabs line))
            (offset - (max context 0).toNat) offset ++
          '[' :: replaceTabs term ++ ']' ::
          pySlice (pyRstrip (replaceTabs line)) (offset + term.length)
            (min (pyRstrip (replaceTabs line)).length
              (offset + term.length + (max context 0).toNat)) ++
          (if min (pyRstrip (replaceTabs line)).length
              (offset + term.length + (max context 0).toNat) <
              (pyRstrip (replaceTabs line)).length then dots else [])) ∧
    (pySlice (pyRstrip (replaceTabs line))
        (offset - (max context 0).toNat) offset).length ≤
      (max context 0).toNat ∧
    (pySlice (pyRstrip (replaceTabs line)) (offset + term.length)
        (min (pyRstrip (replaceTabs line)).length
          (offset + term.length + (max context 0).toNat))).length ≤
      (max context 0).toNat ∧
    (0 < offset - (max context 0).toNat ↔
      (pyRstrip (replaceTabs line)).take
        (offset - (max context 0).toNat) ≠ []) ∧
    (min (pyRstrip (replaceTabs line)).length
        (offset + term.length + (max context 0).toNat) <
        (pyRstrip (replaceTabs line)).length ↔
      (pyRstrip (replaceTabs line)).drop
        (min (pyRstrip (replaceTabs line)).length
          (offset + term.length + (max context 0).toNat)) ≠ []) := by
  have hbound := pyRstrip_prefix_bound hocc hne hlast
  have hterm_pos : 0 < term.length := List.length_pos.mpr hne
  refine ⟨⟨replaceTabs_length line, ?_⟩,
    hbound, ?_, ?_, ?_, ?_, ?_⟩
  · intro i h
    rw [List.get_eq_getElem, List.get_eq_getElem]
    unfold replaceTabs
    rw [List.getElem_map]
  · simp only [render_snippet]
    rw [cleaned_match_slice hocc hne hlast]
  · unfold pySlice
    rw [List.length_drop, List.length_take]
    omega
  · unfold pySlice
    rw [List.length_drop, List.length_take]
    omega
  · rw [← List.length_pos, List.length_take]
    omega
  · rw [← List.length_pos, List.length_drop]
    omega

/-- C8 witness: line `ab<tab>cd..`, term `cd` at offset 3, context 1 — the
tab becomes a space (and is the one context character kept on the left),
the match is bracketed, and ellipses appear on both sides. -/
theorem c8_witness :
    render_snippet "ab\tcd..x".toList 3 "cd".toList 1 =
      pyStrip
        ((if 0 < 3 - (max (1 : Int) 0).toNat then dots else []) ++
          pySlice (pyRstrip (replaceTabs "ab\tcd..x".toList))
            (3 - (max (1 : Int) 0).toNat) 3 ++
          '[' :: replaceTabs "cd".toList ++ ']' ::
          pySlice (pyRstrip (replaceTabs "ab\tcd..x".toList))
            (3 + "cd".toList.length)
            (min (pyRstrip (replaceTabs "ab\tcd..x".toList)).length
              (3 + "cd".toList.length + (max (1 : Int) 0).toNat)) ++
          (if min (pyRstrip (replaceTabs "ab\tcd..x".toList)).length
              (3 + "cd".toList.length + (max (1 : Int) 0).toNat) <
              (pyRstrip (replaceTabs "ab\tcd..x".toList)).length
            then dots else [])) ∧
    render_snippet "ab\tcd..x".toList 3 "cd".toList 1 =
      "... [cd]....".toList :=
  ⟨(c8_render_snippet "ab\tcd..x".toList 3 "cd".toList 1 (by decide)
      (by decide) (by decide)).2.2.1,
    by decide⟩

/-- C9 witness: an unresolvable data directory yields exit code 2, an error
report, and no results. -/
theorem c9_witness :
    (mainModel (.failure "books.csv not found") [] 10 true).exit_code = 2 ∧
    (mainModel (.failure "books.csv not found") [] 10 true).results = [] ∧
    (mainModel (.failure "books.csv not found") [] 10
      true).error_reported = true := by
  have h := (c9_exit_codes (.failure "books.csv not found") [] 10 true).2.2.1
  obtain ⟨msg, hmsg, hrep, hres⟩ := h.mp (by decide)
  exact ⟨by decide, hres, hrep⟩
